import Mathlib

/-!
# Verification of the exact binomial test and its confidence intervals

A shallow embedding of `scipy/stats/_binomtest.py`: the p-value engine
(`binomtest`), the binary search over the binomial PMF used by the two-sided
test, and the confidence-interval engine (`proportion_ci` with the exact
Clopper-Pearson, Wilson and Wilson-with-continuity-correction methods).

The p-value engine is embedded over `ℚ` (exact arithmetic standing in for the
floating-point computation).  The confidence-interval engine is embedded over
`ℝ`; its external collaborators (the `brentq` root finder and the inverse
normal CDF `ndtri`, which live outside the verified slice of the repository)
are passed in as parameters and constrained by their documented contracts.
-/

namespace Binomtest

/-- Modelled from the spec: the binomial PMF `pmf(x, n, p)` supplied by the
external `DiscreteBinomialOracle` collaborator, `C(n,x) p^x (1-p)^(n-x)` on
the support `0 ≤ x ≤ n` and `0` elsewhere.  Polymorphic so that the same
definition serves the `ℚ`-valued p-value engine and the `ℝ`-valued interval
engine. -/
def binomPmf {K : Type} [LinearOrderedField K] (n : ℕ) (p : K) (x : ℤ) : K :=
  if 0 ≤ x ∧ x ≤ (n : ℤ) then
    (n.choose x.toNat : K) * p ^ x.toNat * (1 - p) ^ (n - x.toNat)
  else 0

/-- Modelled from the spec: the binomial CDF `cdf(x, n, p) = P(X ≤ x)`
supplied by the external oracle. -/
def binomCdf {K : Type} [LinearOrderedField K] (n : ℕ) (p : K) (x : ℤ) : K :=
  ∑ j ∈ Finset.range (n + 1), if (j : ℤ) ≤ x then binomPmf n p j else 0

/-- Modelled from the spec: the binomial survival function
`sf(x, n, p) = P(X > x)` supplied by the external oracle. -/
def binomSf {K : Type} [LinearOrderedField K] (n : ℕ) (p : K) (x : ℤ) : K :=
  ∑ j ∈ Finset.range (n + 1), if x < (j : ℤ) then binomPmf n p j else 0

/-- `_binary_search_for_binom_tst(a, d, lo, hi, asc_order=False)`: the while
loop narrows `[lo, hi]` (to `[mid+1, hi]` when `a(mid) < d`, to `[lo, mid-1]`
when `a(mid) > d`, returning `mid` on an exact hit) and on exit returns `lo`
if `a(lo) ≤ d`, else `lo - 1`.  The `ascOrder` argument is carried exactly as
in the source, where it is never read. -/
def binary_search_for_binom_tst (a : ℤ → ℚ) (d : ℚ) (lo hi : ℤ)
    (ascOrder : Bool) : ℤ :=
  if lo < hi then
    let mid := lo + (hi - lo) / 2
    let midval := a mid
    if midval < d then binary_search_for_binom_tst a d (mid + 1) hi ascOrder
    else if midval > d then binary_search_for_binom_tst a d lo (mid - 1) ascOrder
    else mid
  else if a lo ≤ d then lo else lo - 1
termination_by (hi - lo).toNat
decreasing_by
  all_goals
    simp_wf
    omega

/-- The same loop with an explicit iteration budget: `none` means the budget
was exhausted before the loop exited.  Used to state termination of the
source's `while` loop. -/
def binarySearchFuel (a : ℤ → ℚ) (d : ℚ) : ℕ → ℤ → ℤ → Bool → Option ℤ
  | 0, _, _, _ => none
  | fuel + 1, lo, hi, asc =>
    if lo < hi then
      let mid := lo + (hi - lo) / 2
      let midval := a mid
      if midval < d then binarySearchFuel a d fuel (mid + 1) hi asc
      else if midval > d then binarySearchFuel a d fuel lo (mid - 1) asc
      else some mid
    else if a lo ≤ d then some lo else some (lo - 1)

/-- The unclamped two-sided branch of `binomtest`: the shortcut when
`k = p*n`, and otherwise the sum of the two tail probabilities located via
the binary search (the `min(1.0, pval)` clamp is applied by `binomPval`). -/
def twoSidedRaw (k n : ℕ) (p : ℚ) : ℚ :=
  let d := binomPmf n p (k : ℤ)
  let rerr : ℚ := 1 + 1 / 10000000
  if (k : ℚ) = p * n then 1
  else if (k : ℚ) < p * n then
    let y := (n : ℤ) -
      binary_search_for_binom_tst (fun x1 => -binomPmf n p x1) (-d * rerr)
        ⌈p * (n : ℚ)⌉ (n : ℤ) false
    binomCdf n p (k : ℤ) + binomSf n p ((n : ℤ) - y)
  else
    let y := binary_search_for_binom_tst (fun x1 => binomPmf n p x1) (d * rerr)
        0 (⌊p * (n : ℚ)⌋ + 1) true + 1
    binomCdf n p (y - 1) + binomSf n p ((k : ℤ) - 1)

/-- The p-value computed by `binomtest` for a given alternative: `cdf(k)` for
`'less'`, `sf(k-1)` for `'greater'`, and the clamped two-sided sum otherwise
(mirroring the source's `if/elif/else` chain, whose `else` is the two-sided
branch). -/
def binomPval (k n : ℕ) (p : ℚ) (alternative : String) : ℚ :=
  if alternative = "less" then binomCdf n p (k : ℤ)
  else if alternative = "greater" then binomSf n p ((k : ℤ) - 1)
  else min 1 (twoSidedRaw k n p)

/-- Result object of `binomtest`. -/
structure BinomTestResult where
  k : ℕ
  n : ℕ
  alternative : String
  pvalue : ℚ
  proportion_estimate : ℚ
deriving DecidableEq

/-- `binomtest(k, n, p, alternative)`: input validation (`n ≥ 1`, `k ≤ n`,
`p ∈ [0,1]`, recognised alternative) followed by the p-value computation and
result construction. -/
def binomtest (k n : ℕ) (p : ℚ) (alternative : String) :
    Except String BinomTestResult :=
  if n < 1 then .error "n must be >= 1"
  else if n < k then .error "k must not be greater than n."
  else if ¬(0 ≤ p ∧ p ≤ 1) then .error "p must be in range [0,1]"
  else if ¬(alternative = "two-sided" ∨ alternative = "less" ∨
      alternative = "greater") then
    .error "alternative not recognized; must be 'two-sided', 'less' or 'greater'"
  else .ok ⟨k, n, alternative, binomPval k n p alternative, (k : ℚ) / n⟩

end Binomtest

namespace Binomtest

/-! ## Basic facts about the binomial oracle -/

theorem binomPmf_nonneg {K : Type} [LinearOrderedField K] {p : K}
    (hp0 : 0 ≤ p) (hp1 : p ≤ 1) (n : ℕ) (x : ℤ) : 0 ≤ binomPmf n p x := by
  unfold binomPmf
  split
  · have h1 : (0 : K) ≤ 1 - p := by linarith
    positivity
  · exact le_refl 0

theorem sum_binomPmf {K : Type} [LinearOrderedField K] (n : ℕ) (p : K) :
    ∑ j ∈ Finset.range (n + 1), binomPmf n p (j : ℤ) = 1 := by
  have h : ∀ j ∈ Finset.range (n + 1),
      binomPmf n p (j : ℤ) = p ^ j * (1 - p) ^ (n - j) * (n.choose j : K) := by
    intro j hj
    rw [Finset.mem_range, Nat.lt_succ_iff] at hj
    unfold binomPmf
    rw [if_pos ⟨Int.natCast_nonneg j, by exact_mod_cast hj⟩, Int.toNat_natCast]
    ring
  rw [Finset.sum_congr rfl h, ← add_pow]
  simp

theorem binomCdf_nonneg {K : Type} [LinearOrderedField K] {p : K}
    (hp0 : 0 ≤ p) (hp1 : p ≤ 1) (n : ℕ) (x : ℤ) : 0 ≤ binomCdf n p x :=
  Finset.sum_nonneg fun j _ => by
    split
    · exact binomPmf_nonneg hp0 hp1 n j
    · exact le_refl 0

theorem binomSf_nonneg {K : Type} [LinearOrderedField K] {p : K}
    (hp0 : 0 ≤ p) (hp1 : p ≤ 1) (n : ℕ) (x : ℤ) : 0 ≤ binomSf n p x :=
  Finset.sum_nonneg fun j _ => by
    split
    · exact binomPmf_nonneg hp0 hp1 n j
    · exact le_refl 0

theorem binomCdf_le_one {K : Type} [LinearOrderedField K] {p : K}
    (hp0 : 0 ≤ p) (hp1 : p ≤ 1) (n : ℕ) (x : ℤ) : binomCdf n p x ≤ 1 := by
  rw [← sum_binomPmf n p]
  apply Finset.sum_le_sum
  intro j _
  split
  · exact le_refl _
  · exact binomPmf_nonneg hp0 hp1 n j

theorem binomSf_le_one {K : Type} [LinearOrderedField K] {p : K}
    (hp0 : 0 ≤ p) (hp1 : p ≤ 1) (n : ℕ) (x : ℤ) : binomSf n p x ≤ 1 := by
  rw [← sum_binomPmf n p]
  apply Finset.sum_le_sum
  intro j _
  split
  · exact le_refl _
  · exact binomPmf_nonneg hp0 hp1 n j

theorem binomCdf_add_binomSf {K : Type} [LinearOrderedField K] (n : ℕ) (p : K)
    (x : ℤ) : binomCdf n p x + binomSf n p x = 1 := by
  unfold binomCdf binomSf
  rw [← Finset.sum_add_distrib, ← sum_binomPmf n p]
  apply Finset.sum_congr rfl
  intro j _
  by_cases h : (j : ℤ) ≤ x
  · rw [if_pos h, if_neg (not_lt.mpr h), add_zero]
  · rw [if_neg h, if_pos (not_le.mp h), zero_add]

/-! ## Evaluation helpers for the two-sided branch -/

theorem twoSidedRaw_left_eval {k n : ℕ} {p : ℚ} {L r : ℤ}
    (h1 : ¬((k : ℚ) = p * n)) (h2 : (k : ℚ) < p * n)
    (hL : ⌈p * (n : ℚ)⌉ = L)
    (hr : binary_search_for_binom_tst (fun x1 => -binomPmf n p x1)
      (-binomPmf n p (k : ℤ) * (1 + 1 / 10000000)) L (n : ℤ) false = r) :
    twoSidedRaw k n p = binomCdf n p (k : ℤ) + binomSf n p r := by
  simp only [twoSidedRaw, if_neg h1, if_pos h2, hL, hr, sub_sub_cancel]

theorem twoSidedRaw_right_eval {k n : ℕ} {p : ℚ} {F r : ℤ}
    (h1 : ¬((k : ℚ) = p * n)) (h2 : ¬((k : ℚ) < p * n))
    (hF : ⌊p * (n : ℚ)⌋ = F)
    (hr : binary_search_for_binom_tst (fun x1 => binomPmf n p x1)
      (binomPmf n p (k : ℤ) * (1 + 1 / 10000000)) 0 (F + 1) true = r) :
    twoSidedRaw k n p = binomCdf n p r + binomSf n p ((k : ℤ) - 1) := by
  simp only [twoSidedRaw, if_neg h1, if_neg h2, hF, hr, add_sub_cancel_right]

theorem twoSidedRaw_nonneg {k n : ℕ} {p : ℚ} (hp0 : 0 ≤ p) (hp1 : p ≤ 1) :
    0 ≤ twoSidedRaw k n p := by
  simp only [twoSidedRaw]
  split_ifs
  · norm_num
  · exact add_nonneg (binomCdf_nonneg hp0 hp1 _ _) (binomSf_nonneg hp0 hp1 _ _)
  · exact add_nonneg (binomCdf_nonneg hp0 hp1 _ _) (binomSf_nonneg hp0 hp1 _ _)

/-! ## Inversion of a successful `binomtest` call -/

theorem binomtest_ok_inv {k n : ℕ} {p : ℚ} {alternative : String}
    {r : BinomTestResult} (h : binomtest k n p alternative = .ok r) :
    1 ≤ n ∧ k ≤ n ∧ 0 ≤ p ∧ p ≤ 1 ∧
      (alternative = "two-sided" ∨ alternative = "less" ∨
        alternative = "greater") ∧
      r = ⟨k, n, alternative, binomPval k n p alternative, (k : ℚ) / n⟩ := by
  unfold binomtest at h
  split_ifs at h with h1 h2 h3 h4
  injection h with h5
  exact ⟨by omega, by omega, h3.1, h3.2, h4, h5.symm⟩

end Binomtest

namespace Binomtest

theorem binomPval_two_sided (k n : ℕ) (p : ℚ) :
    binomPval k n p "two-sided" = min 1 (twoSidedRaw k n p) := by
  simp [binomPval]

theorem binomPval_less (k n : ℕ) (p : ℚ) :
    binomPval k n p "less" = binomCdf n p (k : ℤ) := by
  simp [binomPval]

theorem binomPval_greater (k n : ℕ) (p : ℚ) :
    binomPval k n p "greater" = binomSf n p ((k : ℤ) - 1) := by
  simp [binomPval]

/-- C2 -/
theorem c2_pvalue_unit_interval {k n : ℕ} {p : ℚ} {alternative : String}
    {r : BinomTestResult} (h : binomtest k n p alternative = .ok r) :
    (0 ≤ r.pvalue ∧ r.pvalue ≤ 1) ∧
      (alternative = "two-sided" → r.pvalue = min 1 (twoSidedRaw k n p)) := by
  obtain ⟨hn, hk, hp0, hp1, halt, hr⟩ := binomtest_ok_inv h
  subst hr
  dsimp only
  rcases halt with ha | ha | ha <;> subst ha
  · rw [binomPval_two_sided]
    exact ⟨⟨le_min (by norm_num) (twoSidedRaw_nonneg hp0 hp1), min_le_left _ _⟩,
      fun _ => rfl⟩
  · rw [binomPval_less]
    exact ⟨⟨binomCdf_nonneg hp0 hp1 n k, binomCdf_le_one hp0 hp1 n k⟩,
      fun hcon => by simp at hcon⟩
  · rw [binomPval_greater]
    exact ⟨⟨binomSf_nonneg hp0 hp1 n _, binomSf_le_one hp0 hp1 n _⟩,
      fun hcon => by simp at hcon⟩

/-- C2 witness -/
theorem c2_witness :
    ∃ r, binomtest 1 3 (1/2) "greater" = .ok r ∧ 0 ≤ r.pvalue ∧ r.pvalue ≤ 1 := by
  have h : binomtest 1 3 (1/2) "greater" =
      .ok ⟨1, 3, "greater", binomPval 1 3 (1/2) "greater", 1/3⟩ := by
    unfold binomtest
    rw [if_neg (by norm_num), if_neg (by norm_num), if_neg (by norm_num),
      if_neg (by decide)]
    norm_num
  exact ⟨_, h, ((c2_pvalue_unit_interval h).1.1), ((c2_pvalue_unit_interval h).1.2)⟩

/-- C4 amended -/
theorem c4_amended {k n : ℕ} {p : ℚ} {r : BinomTestResult}
    (h : binomtest k n p "two-sided" = .ok r) (hk : (k : ℚ) = p * n) :
    r.pvalue = 1 := by
  obtain ⟨_, _, _, _, _, hr⟩ := binomtest_ok_inv h
  subst hr
  dsimp only
  rw [binomPval_two_sided]
  simp only [twoSidedRaw, if_pos hk]
  norm_num

/-- C4 witness -/
theorem c4_witness :
    ∃ r, binomtest 1 2 (1/2) "two-sided" = .ok r ∧ r.pvalue = 1 := by
  have h : binomtest 1 2 (1/2) "two-sided" =
      .ok ⟨1, 2, "two-sided", binomPval 1 2 (1/2) "two-sided", 1/2⟩ := by
    unfold binomtest
    rw [if_neg (by norm_num), if_neg (by norm_num), if_neg (by norm_num),
      if_neg (by decide)]
    norm_num
  exact ⟨_, h, c4_amended h (by norm_num)⟩

/-- C4 counterexample -/
theorem c4_counterexample :
    (∃ r, binomtest 0 2 (3/10) "two-sided" = .ok r ∧ r.pvalue = 1) ∧
      ((0 : ℕ) : ℚ) ≠ 3/10 * ((2 : ℕ) : ℚ) := by
  constructor
  · have hL : ⌈(3/10 : ℚ) * ((2:ℕ) : ℚ)⌉ = 1 := by
      rw [Int.ceil_eq_iff]
      norm_num
    have hr : binary_search_for_binom_tst (fun x1 => -binomPmf 2 ((3:ℚ)/10) x1)
        (-binomPmf 2 ((3:ℚ)/10) ((0:ℕ) : ℤ) * (1 + 1 / 10000000)) 1 ((2:ℕ):ℤ)
        false = 0 := by
      rw [binary_search_for_binom_tst]
      norm_num [binomPmf]
      rw [binary_search_for_binom_tst]
      norm_num [binomPmf]
    have hraw : twoSidedRaw 0 2 (3/10) = 1 := by
      rw [twoSidedRaw_left_eval (by norm_num) (by norm_num) hL hr]
      norm_num [binomCdf, binomSf, binomPmf, Finset.sum_range_succ]
    have h : binomtest 0 2 (3/10) "two-sided" =
        .ok ⟨0, 2, "two-sided", binomPval 0 2 (3/10) "two-sided", 0⟩ := by
      unfold binomtest
      rw [if_neg (by norm_num), if_neg (by norm_num), if_neg (by norm_num),
        if_neg (by decide)]
      norm_num
    refine ⟨_, h, ?_⟩
    dsimp only
    rw [binomPval_two_sided, hraw]
    norm_num
  · norm_num

/-- C5 -/
theorem c5_one_sided {k n : ℕ} {p : ℚ} {r s : BinomTestResult}
    (hr : binomtest k n p "less" = .ok r)
    (hs : binomtest k n p "greater" = .ok s) :
    r.pvalue = binomCdf n p (k : ℤ) ∧ s.pvalue = binomSf n p ((k : ℤ) - 1) := by
  obtain ⟨_, _, _, _, _, hr'⟩ := binomtest_ok_inv hr
  obtain ⟨_, _, _, _, _, hs'⟩ := binomtest_ok_inv hs
  subst hr'
  subst hs'
  exact ⟨binomPval_less k n p, binomPval_greater k n p⟩

/-- C5 witness -/
theorem c5_witness :
    ∃ r s, binomtest 1 3 (1/2) "less" = .ok r ∧
      binomtest 1 3 (1/2) "greater" = .ok s ∧
      r.pvalue = binomCdf 3 (1/2) 1 ∧ s.pvalue = binomSf 3 (1/2) 0 := by
  have h1 : binomtest 1 3 (1/2) "less" =
      .ok ⟨1, 3, "less", binomPval 1 3 (1/2) "less", 1/3⟩ := by
    unfold binomtest
    rw [if_neg (by norm_num), if_neg (by norm_num), if_neg (by norm_num),
      if_neg (by decide)]
    norm_num
  have h2 : binomtest 1 3 (1/2) "greater" =
      .ok ⟨1, 3, "greater", binomPval 1 3 (1/2) "greater", 1/3⟩ := by
    unfold binomtest
    rw [if_neg (by norm_num), if_neg (by norm_num), if_neg (by norm_num),
      if_neg (by decide)]
    norm_num
  refine ⟨_, _, h1, h2, ?_, ?_⟩
  · exact (c5_one_sided h1 h2).1
  · have := (c5_one_sided h1 h2).2
    simpa using this

end Binomtest

namespace Binomtest

/-! ## Unfolding equations for the binary search -/

theorem bs_exit (a : ℤ → ℚ) (d : ℚ) (lo hi : ℤ) (asc : Bool)
    (hge : ¬(lo < hi)) :
    binary_search_for_binom_tst a d lo hi asc =
      if a lo ≤ d then lo else lo - 1 := by
  rw [binary_search_for_binom_tst, if_neg hge]

theorem bs_step_lt {a : ℤ → ℚ} {d : ℚ} {lo hi : ℤ} (asc : Bool) (hlt : lo < hi)
    (hc : a (lo + (hi - lo) / 2) < d) :
    binary_search_for_binom_tst a d lo hi asc =
      binary_search_for_binom_tst a d (lo + (hi - lo) / 2 + 1) hi asc := by
  rw [binary_search_for_binom_tst, if_pos hlt]
  simp only [if_pos hc]

theorem bs_step_gt {a : ℤ → ℚ} {d : ℚ} {lo hi : ℤ} (asc : Bool) (hlt : lo < hi)
    (hc1 : ¬(a (lo + (hi - lo) / 2) < d)) (hc2 : d < a (lo + (hi - lo) / 2)) :
    binary_search_for_binom_tst a d lo hi asc =
      binary_search_for_binom_tst a d lo (lo + (hi - lo) / 2 - 1) asc := by
  rw [binary_search_for_binom_tst, if_pos hlt]
  simp only [if_neg hc1, if_pos hc2]

theorem bs_step_eq {a : ℤ → ℚ} {d : ℚ} {lo hi : ℤ} (asc : Bool) (hlt : lo < hi)
    (hc : a (lo + (hi - lo) / 2) = d) :
    binary_search_for_binom_tst a d lo hi asc = lo + (hi - lo) / 2 := by
  rw [binary_search_for_binom_tst, if_pos hlt]
  simp only [hc, lt_irrefl, if_neg (lt_irrefl d)]
  simp

/-- The contract satisfied by the result of the binary search relative to an
enclosing range `[lo0, hi0]`. -/
def SearchOut (a : ℤ → ℚ) (d : ℚ) (lo0 hi0 r : ℤ) : Prop :=
  lo0 - 1 ≤ r ∧ r ≤ hi0 ∧ (lo0 ≤ r → a r ≤ d) ∧ (r < hi0 → d < a (r + 1))

theorem bs_exit_spec (a : ℤ → ℚ) (d : ℚ) (lo0 hi0 lo hi : ℤ) (asc : Bool)
    (hge : ¬(lo < hi)) (hlo1 : lo0 ≤ lo) (hlo2 : lo ≤ hi0) (hlohi : lo ≤ hi + 1)
    (hleft : ∀ x : ℤ, lo0 ≤ x → x < lo → a x < d)
    (hright : ∀ x : ℤ, hi < x → x ≤ hi0 → d < a x) :
    SearchOut a d lo0 hi0 (binary_search_for_binom_tst a d lo hi asc) := by
  rw [bs_exit a d lo hi asc hge]
  by_cases ha : a lo ≤ d
  · rw [if_pos ha]
    refine ⟨by omega, hlo2, fun _ => ha, fun hlt => ?_⟩
    rcases (by omega : lo = hi ∨ hi + 1 = lo) with he | he
    · exact hright (lo + 1) (by omega) (by omega)
    · exact absurd ha (not_le.mpr (hright lo (by omega) (by omega)))
  · rw [if_neg ha]
    refine ⟨by omega, by omega, fun hlo => le_of_lt ?_, fun _ => ?_⟩
    · exact hleft (lo - 1) hlo (by omega)
    · have : lo - 1 + 1 = lo := by omega
      rw [this]
      exact not_le.mp ha

theorem binary_search_spec_aux (a : ℤ → ℚ) (d : ℚ) (lo0 hi0 : ℤ) (asc : Bool)
    (hmono : ∀ x y : ℤ, lo0 ≤ x → x < y → y < hi0 → a x < a y)
    (htop : d < a hi0 ∨ ∀ x : ℤ, lo0 ≤ x → x < hi0 → a x < a hi0) :
    ∀ (fuel : ℕ) (lo hi : ℤ), (hi - lo).toNat ≤ fuel →
      lo0 ≤ lo → lo ≤ hi0 → lo ≤ hi + 1 → hi ≤ hi0 →
      (∀ x : ℤ, lo0 ≤ x → x < lo → a x < d) →
      (∀ x : ℤ, hi < x → x ≤ hi0 → d < a x) →
      SearchOut a d lo0 hi0 (binary_search_for_binom_tst a d lo hi asc) := by
  intro fuel
  induction fuel with
  | zero =>
    intro lo hi hfuel hlo1 hlo2 hlohi hhi hleft hright
    exact bs_exit_spec a d lo0 hi0 lo hi asc (by omega) hlo1 hlo2 hlohi hleft hright
  | succ f ih =>
    intro lo hi hfuel hlo1 hlo2 hlohi hhi hleft hright
    by_cases hlt : lo < hi
    · have hmid1 : lo ≤ lo + (hi - lo) / 2 := by omega
      have hmid2 : lo + (hi - lo) / 2 < hi := by omega
      by_cases hc1 : a (lo + (hi - lo) / 2) < d
      · rw [bs_step_lt asc hlt hc1]
        apply ih (lo + (hi - lo) / 2 + 1) hi (by omega) (by omega) (by omega)
          (by omega) hhi
        · intro x hx hxlt
          rcases (by omega : x < lo ∨ (lo ≤ x ∧ x ≤ lo + (hi - lo) / 2))
            with hcase | hcase
          · exact hleft x hx hcase
          · rcases (by omega : x = lo + (hi - lo) / 2 ∨ x < lo + (hi - lo) / 2)
              with he | he
            · rw [he]; exact hc1
            · exact lt_trans (hmono x (lo + (hi - lo) / 2) hx he (by omega)) hc1
        · exact hright
      · by_cases hc2 : d < a (lo + (hi - lo) / 2)
        · rw [bs_step_gt asc hlt hc1 hc2]
          apply ih lo (lo + (hi - lo) / 2 - 1) (by omega) hlo1 hlo2 (by omega)
            (by omega) hleft
          intro x hxgt hxle
          rcases (by omega : hi < x ∨ x ≤ hi) with hcase | hcase
          · exact hright x hcase hxle
          · rcases (by omega : x = lo + (hi - lo) / 2 ∨ lo + (hi - lo) / 2 < x)
              with he | he
            · rw [he]; exact hc2
            · rcases (by omega : x < hi0 ∨ x = hi0) with hx0 | hx0
              · exact lt_trans hc2 (hmono (lo + (hi - lo) / 2) x (by omega) he hx0)
              · rcases htop with htop | htop
                · rw [hx0]; exact htop
                · rw [hx0]
                  exact lt_trans hc2
                    (htop (lo + (hi - lo) / 2) (by omega) (by omega))
        · have hc3 : a (lo + (hi - lo) / 2) = d := le_antisymm (not_lt.mp hc2) (not_lt.mp hc1)
          rw [bs_step_eq asc hlt hc3]
          refine ⟨by omega, by omega, fun _ => le_of_eq hc3, fun hmidhi => ?_⟩
          rcases (by omega : lo + (hi - lo) / 2 + 1 < hi0 ∨
            lo + (hi - lo) / 2 + 1 = hi0) with hcase | hcase
          · rw [← hc3]
            exact hmono (lo + (hi - lo) / 2) (lo + (hi - lo) / 2 + 1) (by omega)
              (by omega) hcase
          · rcases htop with htop | htop
            · rw [hcase]; exact htop
            · rw [hcase, ← hc3]
              exact htop (lo + (hi - lo) / 2) (by omega) (by omega)
    · exact bs_exit_spec a d lo0 hi0 lo hi asc hlt hlo1 hlo2 hlohi hleft hright

end Binomtest

namespace Binomtest

/-- C3 (amended): for every target `d` and every function `a` that is
strictly increasing on the integer range `[lo, hi]` with `lo ≤ hi`,
`_binary_search_for_binom_tst` returns an index `idx` with
`lo - 1 ≤ idx ≤ hi` such that `a idx ≤ d` whenever `lo ≤ idx`, and
`d < a (idx + 1)` whenever `idx < hi`. -/
theorem c3_binary_search_contract {a : ℤ → ℚ} {d : ℚ} {lo hi : ℤ} (asc : Bool)
    (hlohi : lo ≤ hi)
    (hmono : ∀ x y : ℤ, lo ≤ x → x < y → y ≤ hi → a x < a y) :
    lo - 1 ≤ binary_search_for_binom_tst a d lo hi asc ∧
      binary_search_for_binom_tst a d lo hi asc ≤ hi ∧
      (lo ≤ binary_search_for_binom_tst a d lo hi asc →
        a (binary_search_for_binom_tst a d lo hi asc) ≤ d) ∧
      (binary_search_for_binom_tst a d lo hi asc < hi →
        d < a (binary_search_for_binom_tst a d lo hi asc + 1)) :=
  binary_search_spec_aux a d lo hi asc
    (fun x y hx hxy hy => hmono x y hx hxy (by omega))
    (Or.inr fun x hx hxy => hmono x hi hx hxy (le_refl hi))
    (hi - lo).toNat lo hi (by omega) (le_refl lo) hlohi (by omega) (le_refl hi)
    (fun x hx hx' => absurd hx (by omega))
    (fun x hx hx' => absurd hx' (by omega))

/-- C3 witness: the amended contract at `a x = x`, `d = 1/2`, `[lo,hi] = [0,2]`. -/
theorem c3_witness :
    (0 : ℤ) - 1 ≤ binary_search_for_binom_tst (fun x => (x : ℚ)) (1/2) 0 2 false ∧
      binary_search_for_binom_tst (fun x => (x : ℚ)) (1/2) 0 2 false ≤ 2 ∧
      ((0 : ℤ) ≤ binary_search_for_binom_tst (fun x => (x : ℚ)) (1/2) 0 2 false →
        ((binary_search_for_binom_tst (fun x => (x : ℚ)) (1/2) 0 2 false : ℤ) : ℚ) ≤ 1/2) ∧
      (binary_search_for_binom_tst (fun x => (x : ℚ)) (1/2) 0 2 false < 2 →
        1/2 < ((binary_search_for_binom_tst (fun x => (x : ℚ)) (1/2) 0 2 false + 1 : ℤ) : ℚ)) :=
  c3_binary_search_contract false (by omega)
    (fun x y hx hxy hy => by exact_mod_cast hxy)

/-- C3 counterexample: the constant function `a = 0` is non-decreasing on
`[0, 2]`, the search with target `d = 0` returns `idx = 1`, yet
`d < a (idx + 1)` fails, refuting the claimed `a(idx) ≤ d < a(idx+1)`. -/
theorem c3_counterexample :
    (∀ x y : ℤ, x ≤ y → (fun _ : ℤ => (0 : ℚ)) x ≤ (fun _ : ℤ => (0 : ℚ)) y) ∧
      binary_search_for_binom_tst (fun _ : ℤ => (0 : ℚ)) 0 0 2 false = 1 ∧
      ¬((0 : ℚ) < (fun _ : ℤ => (0 : ℚ)) (1 + 1)) := by
  refine ⟨fun x y _ => le_refl 0, ?_, by norm_num⟩
  rw [binary_search_for_binom_tst]
  norm_num

theorem bs_asc_aux (a : ℤ → ℚ) (d : ℚ) :
    ∀ (fuel : ℕ) (lo hi : ℤ) (b1 b2 : Bool), (hi - lo).toNat ≤ fuel →
      binary_search_for_binom_tst a d lo hi b1 =
        binary_search_for_binom_tst a d lo hi b2 := by
  intro fuel
  induction fuel with
  | zero =>
    intro lo hi b1 b2 h
    rw [bs_exit a d lo hi b1 (by omega), bs_exit a d lo hi b2 (by omega)]
  | succ f ih =>
    intro lo hi b1 b2 h
    by_cases hlt : lo < hi
    · by_cases hc1 : a (lo + (hi - lo) / 2) < d
      · rw [bs_step_lt b1 hlt hc1, bs_step_lt b2 hlt hc1]
        exact ih _ _ _ _ (by omega)
      · by_cases hc2 : d < a (lo + (hi - lo) / 2)
        · rw [bs_step_gt b1 hlt hc1 hc2, bs_step_gt b2 hlt hc1 hc2]
          exact ih _ _ _ _ (by omega)
        · rw [bs_step_eq b1 hlt (le_antisymm (not_lt.mp hc2) (not_lt.mp hc1)),
            bs_step_eq b2 hlt (le_antisymm (not_lt.mp hc2) (not_lt.mp hc1))]
    · rw [bs_exit a d lo hi b1 hlt, bs_exit a d lo hi b2 hlt]

/-- C9: the `asc_order` parameter has no effect on the result of
`_binary_search_for_binom_tst`: it is never read in the body, so the search
with `asc_order = true` and with `asc_order = false` return the same index
for every function, target and bounds. -/
theorem c9_asc_order_irrelevant (a : ℤ → ℚ) (d : ℚ) (lo hi : ℤ) (b1 b2 : Bool) :
    binary_search_for_binom_tst a d lo hi b1 =
      binary_search_for_binom_tst a d lo hi b2 :=
  bs_asc_aux a d (hi - lo).toNat lo hi b1 b2 (le_refl _)

theorem binarySearchFuel_complete (a : ℤ → ℚ) (d : ℚ) :
    ∀ (fuel : ℕ) (lo hi : ℤ) (asc : Bool), (hi - lo).toNat < fuel →
      binarySearchFuel a d fuel lo hi asc =
        some (binary_search_for_binom_tst a d lo hi asc) := by
  intro fuel
  induction fuel with
  | zero =>
    intro lo hi asc h
    exact absurd h (by omega)
  | succ f ih =>
    intro lo hi asc h
    by_cases hlt : lo < hi
    · simp only [binarySearchFuel, if_pos hlt]
      by_cases hc1 : a (lo + (hi - lo) / 2) < d
      · rw [if_pos hc1, bs_step_lt asc hlt hc1]
        exact ih _ _ _ (by omega)
      · by_cases hc2 : d < a (lo + (hi - lo) / 2)
        · rw [if_neg hc1, if_pos hc2, bs_step_gt asc hlt hc1 hc2]
          exact ih _ _ _ (by omega)
        · rw [if_neg hc1, if_neg hc2,
            bs_step_eq asc hlt (le_antisymm (not_lt.mp hc2) (not_lt.mp hc1))]
    · simp only [binarySearchFuel, if_neg hlt]
      rw [bs_exit a d lo hi asc hlt]
      split_ifs with h1
      · rfl
      · rfl

/-- C10: the binary-search loop terminates for every function, target and
bounds (including `lo > hi`); since `hi - lo` strictly decreases at every
iteration, a budget of `(hi - lo).toNat + 1` iterations always suffices, and
the fuelled rendition of the loop returns the loop's result rather than
running out of fuel. -/
theorem c10_search_terminates (a : ℤ → ℚ) (d : ℚ) (lo hi : ℤ) (asc : Bool) :
    binarySearchFuel a d ((hi - lo).toNat + 1) lo hi asc =
      some (binary_search_for_binom_tst a d lo hi asc) :=
  binarySearchFuel_complete a d ((hi - lo).toNat + 1) lo hi asc (by omega)

end Binomtest

namespace Binomtest

/-! ## The confidence-interval engine (over `ℝ`) -/

/-- A Python exception as relevant to `_findp` and `proportion_ci`: its
class, message and (chained) cause.  `unboundLocalError` models reading a
local variable that was never assigned, which is what the fall-through of
`_binom_exact_conf_int` would do on an unrecognised alternative. -/
inductive PyError : Type
  | valueError (msg : String) (cause : Option PyError)
  | runtimeError (msg : String) (cause : Option PyError)
  | unboundLocalError

/-- Modelled from the spec: the outcome of one `brentq(func, 0, 1)` call of
the external `RootFinder` collaborator — a root, or the documented
non-convergence failure (a `RuntimeError`), or a `ValueError` outside the
documented contract. -/
inductive BrentqResult : Type
  | root (r : ℝ)
  | runtimeError (exc : PyError)
  | valueError (exc : PyError)

/-- `_findp(func)`: run `brentq` on `[0, 1]`; re-raise its `RuntimeError` as
a labelled convergence error with the cause suppressed (`from None`), and its
`ValueError` as a report-to-developers error chaining the original exception
(`from exc`). -/
def findp (brentq : (ℝ → ℝ) → BrentqResult) (func : ℝ → ℝ) :
    Except PyError ℝ :=
  match brentq func with
  | .root r => .ok r
  | .runtimeError _ => .error (.runtimeError
      "numerical solver failed to converge when computing the confidence limits"
      none)
  | .valueError exc => .error (.valueError
      "brentq raised a ValueError; report this to the SciPy developers"
      (some exc))

/-- `_binom_exact_conf_int(k, n, confidence_level, alternative)`: the
Clopper-Pearson bounds via root finding, with the boundary overrides at
`k = 0` and `k = n`; an alternative other than the three recognised strings
falls through with `plow`/`phigh` unassigned, i.e. an `UnboundLocalError`. -/
noncomputable def binom_exact_conf_int (brentq : (ℝ → ℝ) → BrentqResult)
    (k n : ℕ) (confidence_level : ℝ) (alternative : String) :
    Except PyError (ℝ × ℝ) :=
  if alternative = "two-sided" then
    let alpha := (1 - confidence_level) / 2
    do
      let plow ← if k = 0 then pure 0 else
        findp brentq (fun p => binomSf n p ((k : ℤ) - 1) - alpha)
      let phigh ← if k = n then pure 1 else
        findp brentq (fun p => binomCdf n p (k : ℤ) - alpha)
      pure (plow, phigh)
  else if alternative = "less" then
    let alpha := 1 - confidence_level
    do
      let phigh ← if k = n then pure 1 else
        findp brentq (fun p => binomCdf n p (k : ℤ) - alpha)
      pure (0, phigh)
  else if alternative = "greater" then
    let alpha := 1 - confidence_level
    do
      let plow ← if k = 0 then pure 0 else
        findp brentq (fun p => binomSf n p ((k : ℤ) - 1) - alpha)
      pure (plow, 1)
  else .error .unboundLocalError

/-- `_binom_wilson_conf_int(k, n, confidence_level, alternative, correction)`
with the inverse normal CDF passed in as the external `ndtri` collaborator. -/
noncomputable def binom_wilson_conf_int (ndtri : ℝ → ℝ) (k n : ℕ)
    (confidence_level : ℝ) (alternative : String) (correction : Bool) :
    ℝ × ℝ :=
  let p : ℝ := (k : ℝ) / (n : ℝ)
  let z := if alternative = "two-sided" then ndtri (0.5 + 0.5 * confidence_level)
    else ndtri confidence_level
  let denom := 2 * ((n : ℝ) + z ^ 2)
  let center := (2 * (n : ℝ) * p + z ^ 2) / denom
  let q := 1 - p
  if correction then
    let dlo := (1 + z * Real.sqrt (z ^ 2 - 2 - 1 / (n : ℝ) +
      4 * p * ((n : ℝ) * q + 1))) / denom
    let lo := if alternative = "less" ∨ k = 0 then 0 else center - dlo
    let dhi := (1 + z * Real.sqrt (z ^ 2 + 2 - 1 / (n : ℝ) +
      4 * p * ((n : ℝ) * q - 1))) / denom
    let hi := if alternative = "greater" ∨ k = n then 1 else center + dhi
    (lo, hi)
  else
    let delta := z / denom * Real.sqrt (4 * (n : ℝ) * p * q + z ^ 2)
    let lo := if alternative = "less" ∨ k = 0 then 0 else center - delta
    let hi := if alternative = "greater" ∨ k = n then 1 else center + delta
    (lo, hi)

/-- Confidence interval record returned by `proportion_ci`. -/
structure ConfidenceInterval where
  low : ℝ
  high : ℝ

/-- `BinomTestResult.proportion_ci(confidence_level, method)`: validation of
`method` and `confidence_level` (`ValueError`s), then the exact
(Clopper-Pearson) interval via the root finder, or a Wilson interval. -/
noncomputable def proportion_ci (brentq : (ℝ → ℝ) → BrentqResult)
    (ndtri : ℝ → ℝ) (k n : ℕ) (alternative : String) (confidence_level : ℝ)
    (method : String) : Except PyError ConfidenceInterval :=
  if ¬(method = "exact" ∨ method = "wilson" ∨ method = "wilsoncc") then
    .error (.valueError "method must be one of 'exact', 'wilson' or 'wilsoncc'."
      none)
  else if ¬(0 ≤ confidence_level ∧ confidence_level ≤ 1) then
    .error (.valueError "confidence_level must be in the interval [0, 1]." none)
  else if method = "exact" then
    (binom_exact_conf_int brentq k n confidence_level alternative).map
      (fun lh => ⟨lh.1, lh.2⟩)
  else
    let lh := binom_wilson_conf_int ndtri k n confidence_level alternative
      (method = "wilsoncc")
    .ok ⟨lh.1, lh.2⟩

end Binomtest

namespace Binomtest

theorem findp_error_shape {brentq : (ℝ → ℝ) → BrentqResult} {func : ℝ → ℝ}
    {e : PyError} (h : findp brentq func = .error e) :
    e ≠ .unboundLocalError := by
  unfold findp at h
  cases hb : brentq func <;> rw [hb] at h
  · exact Except.noConfusion h
  · injection h with h'
    rw [← h']
    intro hcon
    exact PyError.noConfusion hcon
  · injection h with h'
    rw [← h']
    intro hcon
    exact PyError.noConfusion hcon

theorem ite_findp_error_shape {c : Prop} [Decidable c]
    {brentq : (ℝ → ℝ) → BrentqResult} {v : ℝ} {func : ℝ → ℝ} {e : PyError}
    (h : (if c then pure v else findp brentq func) = Except.error e) :
    e ≠ .unboundLocalError := by
  split_ifs at h
  · exact Except.noConfusion h
  · exact findp_error_shape h

theorem findp_ne_unbound (brentq : (ℝ → ℝ) → BrentqResult) (func : ℝ → ℝ) :
    findp brentq func ≠ Except.error PyError.unboundLocalError :=
  fun h => findp_error_shape h rfl

theorem error_bind_py {α β : Type} (e : PyError) (f : α → Except PyError β) :
    (Except.error e >>= f) = Except.error e := rfl

theorem ok_bind_py {α β : Type} (x : α) (f : α → Except PyError β) :
    (Except.ok x >>= f) = f x := rfl

theorem pure_ne_error_py {α : Type} (x : α) (e : PyError) :
    (pure x : Except PyError α) ≠ Except.error e := by
  intro h
  exact Except.noConfusion h

theorem bind_ne_unbound {α β : Type} {x : Except PyError α}
    {f : α → Except PyError β}
    (hx : x ≠ Except.error PyError.unboundLocalError)
    (hf : ∀ a, f a ≠ Except.error PyError.unboundLocalError) :
    (x >>= f) ≠ Except.error PyError.unboundLocalError := by
  cases x with
  | error e =>
    rw [error_bind_py]
    intro hcon
    injection hcon with h
    exact hx (by rw [h])
  | ok a =>
    rw [ok_bind_py]
    exact hf a

theorem ite_findp_ne_unbound {c : Prop} [Decidable c]
    (brentq : (ℝ → ℝ) → BrentqResult) (v : ℝ) (func : ℝ → ℝ) :
    (if c then pure v else findp brentq func) ≠
      Except.error PyError.unboundLocalError := by
  split_ifs
  · exact pure_ne_error_py v _
  · exact findp_ne_unbound brentq func

theorem exact_conf_int_no_unbound {brentq : (ℝ → ℝ) → BrentqResult}
    {k n : ℕ} {cl : ℝ} {alternative : String}
    (halt : alternative = "two-sided" ∨ alternative = "less" ∨
      alternative = "greater") :
    binom_exact_conf_int brentq k n cl alternative ≠
      Except.error PyError.unboundLocalError := by
  rcases halt with ha | ha | ha <;> subst ha <;>
    simp only [binom_exact_conf_int]
  · rw [if_pos trivial]
    by_cases hk0 : k = 0
    · rw [if_pos hk0]
      apply bind_ne_unbound (pure_ne_error_py _ _)
      intro a
      by_cases hkn : k = n
      · rw [if_pos hkn]
        exact bind_ne_unbound (pure_ne_error_py _ _)
          fun b => pure_ne_error_py _ _
      · rw [if_neg hkn]
        exact bind_ne_unbound (findp_ne_unbound _ _)
          fun b => pure_ne_error_py _ _
    · rw [if_neg hk0]
      apply bind_ne_unbound (findp_ne_unbound _ _)
      intro a
      by_cases hkn : k = n
      · rw [if_pos hkn]
        exact bind_ne_unbound (pure_ne_error_py _ _)
          fun b => pure_ne_error_py _ _
      · rw [if_neg hkn]
        exact bind_ne_unbound (findp_ne_unbound _ _)
          fun b => pure_ne_error_py _ _
  · rw [if_neg (by decide), if_pos trivial]
    by_cases hkn : k = n
    · rw [if_pos hkn]
      exact bind_ne_unbound (pure_ne_error_py _ _) fun b => pure_ne_error_py _ _
    · rw [if_neg hkn]
      exact bind_ne_unbound (findp_ne_unbound _ _) fun b => pure_ne_error_py _ _
  · rw [if_neg (by decide), if_neg (by decide), if_pos trivial]
    by_cases hk0 : k = 0
    · rw [if_pos hk0]
      exact bind_ne_unbound (pure_ne_error_py _ _) fun b => pure_ne_error_py _ _
    · rw [if_neg hk0]
      exact bind_ne_unbound (findp_ne_unbound _ _) fun b => pure_ne_error_py _ _

/-- C7: `_findp` turns `brentq`'s `RuntimeError` into a distinct, clearly
labelled convergence error whose cause is suppressed (`from None`); it turns
any other `ValueError` into a distinct internal-error `ValueError` that
chains the original exception as its cause (`from exc`); and when the exact
method's root finding fails, `proportion_ci` propagates that error and
returns no (partial) `ConfidenceInterval`. -/
theorem c7_findp_error_handling :
    (∀ (brentq : (ℝ → ℝ) → BrentqResult) (func : ℝ → ℝ) (exc : PyError),
      brentq func = .runtimeError exc →
        findp brentq func = .error (.runtimeError
          "numerical solver failed to converge when computing the confidence limits"
          none)) ∧
    (∀ (brentq : (ℝ → ℝ) → BrentqResult) (func : ℝ → ℝ) (exc : PyError),
      brentq func = .valueError exc →
        findp brentq func = .error (.valueError
          "brentq raised a ValueError; report this to the SciPy developers"
          (some exc))) ∧
    (∀ (brentq : (ℝ → ℝ) → BrentqResult) (ndtri : ℝ → ℝ) (k n : ℕ) (cl : ℝ)
      (alternative : String) (e : PyError),
      binom_exact_conf_int brentq k n cl alternative = .error e →
      0 ≤ cl → cl ≤ 1 →
      proportion_ci brentq ndtri k n alternative cl "exact" = .error e) := by
  refine ⟨?_, ?_, ?_⟩
  · intro brentq func exc h
    unfold findp
    rw [h]
  · intro brentq func exc h
    unfold findp
    rw [h]
  · intro brentq ndtri k n cl alternative e h h0 h1
    unfold proportion_ci
    rw [if_neg (by simp), if_neg (by simp [h0, h1]), if_pos rfl, h]
    rfl

/-- C7 witness. -/
theorem c7_witness :
    findp (fun _ => BrentqResult.runtimeError PyError.unboundLocalError)
        (fun x => x) =
      .error (.runtimeError
        "numerical solver failed to converge when computing the confidence limits"
        none) ∧
    findp (fun _ => BrentqResult.valueError PyError.unboundLocalError)
        (fun x => x) =
      .error (.valueError
        "brentq raised a ValueError; report this to the SciPy developers"
        (some PyError.unboundLocalError)) ∧
    proportion_ci (fun _ => BrentqResult.runtimeError PyError.unboundLocalError)
        (fun _ => 0) 1 2 "two-sided" (1/2) "exact" =
      .error (.runtimeError
        "numerical solver failed to converge when computing the confidence limits"
        none) := by
  refine ⟨c7_findp_error_handling.1 _ _ _ rfl,
    c7_findp_error_handling.2.1 _ _ _ rfl,
    c7_findp_error_handling.2.2 _ _ 1 2 (1/2) "two-sided" _ ?_ (by norm_num)
      (by norm_num)⟩
  rfl

/-- C8: every `TestResult` produced by `binomtest` carries one of the three
recognised alternatives (any other string is rejected with the
invalid-argument error before any computation), so the three branches of
`_binom_exact_conf_int` are exhaustive for it and the fall-through that would
read the unassigned `plow`/`phigh` (an `UnboundLocalError`) is unreachable. -/
theorem c8_exhaustive_alternatives {k n : ℕ} {p : ℚ} {alternative : String}
    {r : BinomTestResult} (h : binomtest k n p alternative = .ok r)
    (brentq : (ℝ → ℝ) → BrentqResult) (cl : ℝ) :
    binom_exact_conf_int brentq r.k r.n cl r.alternative ≠
      Except.error PyError.unboundLocalError ∧
    ∀ s : String, ¬(s = "two-sided" ∨ s = "less" ∨ s = "greater") →
      binomtest k n p s = .error
        "alternative not recognized; must be 'two-sided', 'less' or 'greater'" := by
  obtain ⟨hn, hk, hp0, hp1, halt, hr⟩ := binomtest_ok_inv h
  constructor
  · subst hr
    exact exact_conf_int_no_unbound halt
  · intro s hs
    unfold binomtest
    rw [if_neg (by omega), if_neg (by omega), if_neg (by simp [hp0, hp1]),
      if_pos hs]

/-- C8 witness. -/
theorem c8_witness :
    binom_exact_conf_int
        (fun _ => BrentqResult.runtimeError PyError.unboundLocalError) 1 2
        ((1:ℝ)/2) "two-sided" ≠ Except.error PyError.unboundLocalError ∧
    binomtest 1 2 (1/2) "bogus" = .error
      "alternative not recognized; must be 'two-sided', 'less' or 'greater'" := by
  have hok : binomtest 1 2 (1/2) "two-sided" =
      .ok ⟨1, 2, "two-sided", binomPval 1 2 (1/2) "two-sided", 1/2⟩ := by
    unfold binomtest
    rw [if_neg (by norm_num), if_neg (by norm_num), if_neg (by norm_num),
      if_neg (by decide)]
    norm_num
  have h := c8_exhaustive_alternatives hok
    (fun _ => BrentqResult.runtimeError PyError.unboundLocalError) ((1:ℝ)/2)
  exact ⟨h.1, h.2 "bogus" (by decide)⟩

end Binomtest

namespace Binomtest

/-! ## Bounds for the Wilson intervals -/

theorem mul_sqrt_le {z B A : ℝ} (hB : 0 ≤ B)
    (h : z ^ 2 * A ≤ B ^ 2) : z * Real.sqrt A ≤ B :=
  calc z * Real.sqrt A ≤ |z * Real.sqrt A| := le_abs_self _
    _ = |z| * Real.sqrt A := by
        rw [abs_mul, abs_of_nonneg (Real.sqrt_nonneg A)]
    _ = Real.sqrt (z ^ 2) * Real.sqrt A := by rw [Real.sqrt_sq_eq_abs]
    _ = Real.sqrt (z ^ 2 * A) := (Real.sqrt_mul (sq_nonneg z) A).symm
    _ ≤ Real.sqrt (B ^ 2) := Real.sqrt_le_sqrt h
    _ = B := by rw [Real.sqrt_sq hB]

theorem wilson_plain_core (N K z : ℝ) (hN : 1 ≤ N) (hK0 : 0 ≤ K) (hKN : K ≤ N) :
    0 ≤ (2 * N * (K / N) + z ^ 2) / (2 * (N + z ^ 2)) -
        z / (2 * (N + z ^ 2)) * Real.sqrt (4 * N * (K / N) * (1 - K / N) + z ^ 2) ∧
      (2 * N * (K / N) + z ^ 2) / (2 * (N + z ^ 2)) -
        z / (2 * (N + z ^ 2)) * Real.sqrt (4 * N * (K / N) * (1 - K / N) + z ^ 2) ≤ 1 ∧
      0 ≤ (2 * N * (K / N) + z ^ 2) / (2 * (N + z ^ 2)) +
        z / (2 * (N + z ^ 2)) * Real.sqrt (4 * N * (K / N) * (1 - K / N) + z ^ 2) ∧
      (2 * N * (K / N) + z ^ 2) / (2 * (N + z ^ 2)) +
        z / (2 * (N + z ^ 2)) * Real.sqrt (4 * N * (K / N) * (1 - K / N) + z ^ 2) ≤ 1 := by
  have hN0 : (0 : ℝ) < N := lt_of_lt_of_le zero_lt_one hN
  have hNne : N ≠ 0 := ne_of_gt hN0
  have harg : 4 * N * (K / N) * (1 - K / N) + z ^ 2 =
      (4 * K * (N - K) + N * z ^ 2) / N := by
    field_simp
    ring
  have hargn : 0 ≤ 4 * N * (K / N) * (1 - K / N) + z ^ 2 := by
    rw [harg]
    apply div_nonneg _ hN0.le
    nlinarith [sq_nonneg z, mul_nonneg hK0 (sub_nonneg.mpr hKN)]
  set s := Real.sqrt (4 * N * (K / N) * (1 - K / N) + z ^ 2) with hs_def
  have hs0 : 0 ≤ s := Real.sqrt_nonneg _
  have hdenom : (0 : ℝ) < 2 * (N + z ^ 2) := by nlinarith [sq_nonneg z]
  have hsq1 : ∀ w : ℝ, w ^ 2 = z ^ 2 →
      w ^ 2 * (4 * N * (K / N) * (1 - K / N) + z ^ 2) ≤ (2 * K + z ^ 2) ^ 2 := by
    intro w hw
    rw [hw, harg, ← mul_div_assoc, div_le_iff₀ hN0]
    nlinarith [mul_nonneg (mul_nonneg hN0.le hK0) hK0,
      mul_nonneg (mul_nonneg hK0 hK0) (sq_nonneg z)]
  have hsq2 : ∀ w : ℝ, w ^ 2 = z ^ 2 →
      w ^ 2 * (4 * N * (K / N) * (1 - K / N) + z ^ 2) ≤
        (2 * (N - K) + z ^ 2) ^ 2 := by
    intro w hw
    rw [hw, harg, ← mul_div_assoc, div_le_iff₀ hN0]
    nlinarith [mul_nonneg (mul_nonneg hN0.le (sub_nonneg.mpr hKN))
        (sub_nonneg.mpr hKN),
      mul_nonneg (mul_nonneg (sub_nonneg.mpr hKN) (sub_nonneg.mpr hKN))
        (sq_nonneg z)]
  have hB1 : (0 : ℝ) ≤ 2 * K + z ^ 2 := by nlinarith [sq_nonneg z]
  have hB2 : (0 : ℝ) ≤ 2 * (N - K) + z ^ 2 := by nlinarith [sq_nonneg z]
  have h1 : z * s ≤ 2 * K + z ^ 2 := mul_sqrt_le hB1 (hsq1 z rfl)
  have h2 : z * s ≤ 2 * (N - K) + z ^ 2 := mul_sqrt_le hB2 (hsq2 z rfl)
  have h3 : -(2 * K + z ^ 2) ≤ z * s := by
    have := mul_sqrt_le hB1 (hsq1 (-z) (neg_sq z))
    linarith
  have h4 : -(2 * (N - K) + z ^ 2) ≤ z * s := by
    have := mul_sqrt_le hB2 (hsq2 (-z) (neg_sq z))
    linarith
  have hlo_eq : (2 * N * (K / N) + z ^ 2) / (2 * (N + z ^ 2)) -
      z / (2 * (N + z ^ 2)) * s =
      (2 * K + z ^ 2 - z * s) / (2 * (N + z ^ 2)) := by
    field_simp
    ring
  have hhi_eq : (2 * N * (K / N) + z ^ 2) / (2 * (N + z ^ 2)) +
      z / (2 * (N + z ^ 2)) * s =
      (2 * K + z ^ 2 + z * s) / (2 * (N + z ^ 2)) := by
    field_simp
    ring
  refine ⟨?_, ?_, ?_, ?_⟩
  · rw [hlo_eq]
    apply div_nonneg _ hdenom.le
    linarith
  · rw [hlo_eq, div_le_one hdenom]
    linarith
  · rw [hhi_eq]
    apply div_nonneg _ hdenom.le
    linarith
  · rw [hhi_eq, div_le_one hdenom]
    linarith

theorem wilsoncc_lo_core (N K z : ℝ) (hN : 1 ≤ N) (hK1 : 1 ≤ K) (hKN : K ≤ N) :
    0 ≤ (2 * N * (K / N) + z ^ 2) / (2 * (N + z ^ 2)) -
        (1 + z * Real.sqrt (z ^ 2 - 2 - 1 / N + 4 * (K / N) * (N * (1 - K / N) + 1))) /
          (2 * (N + z ^ 2)) ∧
      (2 * N * (K / N) + z ^ 2) / (2 * (N + z ^ 2)) -
        (1 + z * Real.sqrt (z ^ 2 - 2 - 1 / N + 4 * (K / N) * (N * (1 - K / N) + 1))) /
          (2 * (N + z ^ 2)) ≤ 1 := by
  have hN0 : (0 : ℝ) < N := lt_of_lt_of_le zero_lt_one hN
  have hNne : N ≠ 0 := ne_of_gt hN0
  have harg : z ^ 2 - 2 - 1 / N + 4 * (K / N) * (N * (1 - K / N) + 1) =
      (N * z ^ 2 - 2 * N - 1 + 4 * K * (N - K + 1)) / N := by
    field_simp
    ring
  have hargn : 0 ≤ z ^ 2 - 2 - 1 / N + 4 * (K / N) * (N * (1 - K / N) + 1) := by
    rw [harg]
    apply div_nonneg _ hN0.le
    nlinarith [mul_nonneg (sub_nonneg.mpr hK1) (sub_nonneg.mpr hKN), sq_nonneg z]
  set s := Real.sqrt (z ^ 2 - 2 - 1 / N + 4 * (K / N) * (N * (1 - K / N) + 1))
    with hs_def
  have hs0 : 0 ≤ s := Real.sqrt_nonneg _
  have hdenom : (0 : ℝ) < 2 * (N + z ^ 2) := by nlinarith [sq_nonneg z]
  have hsqA : ∀ w : ℝ, w ^ 2 = z ^ 2 →
      w ^ 2 * (z ^ 2 - 2 - 1 / N + 4 * (K / N) * (N * (1 - K / N) + 1)) ≤
        (2 * K - 1 + z ^ 2) ^ 2 := by
    intro w hw
    rw [hw, harg, ← mul_div_assoc, div_le_iff₀ hN0]
    nlinarith [mul_nonneg hN0.le (sq_nonneg (2 * K - 1)),
      mul_nonneg (sq_nonneg z) (sq_nonneg (2 * K - 1))]
  have hsqB : ∀ w : ℝ, w ^ 2 = z ^ 2 →
      w ^ 2 * (z ^ 2 - 2 - 1 / N + 4 * (K / N) * (N * (1 - K / N) + 1)) ≤
        (2 * (N - K) + 1 + z ^ 2) ^ 2 := by
    intro w hw
    rw [hw, harg, ← mul_div_assoc, div_le_iff₀ hN0]
    nlinarith [mul_nonneg hN0.le (sq_nonneg (2 * (N - K) + 1)),
      mul_nonneg (sq_nonneg z) (sq_nonneg (2 * (N - K) + 1))]
  have hB1 : (0 : ℝ) ≤ 2 * K - 1 + z ^ 2 := by nlinarith [sq_nonneg z]
  have hB2 : (0 : ℝ) ≤ 2 * (N - K) + 1 + z ^ 2 := by nlinarith [sq_nonneg z]
  have h1 : z * s ≤ 2 * K - 1 + z ^ 2 := mul_sqrt_le hB1 (hsqA z rfl)
  have h2 : -(2 * (N - K) + 1 + z ^ 2) ≤ z * s := by
    have := mul_sqrt_le hB2 (hsqB (-z) (neg_sq z))
    linarith
  have hlo_eq : (2 * N * (K / N) + z ^ 2) / (2 * (N + z ^ 2)) -
      (1 + z * s) / (2 * (N + z ^ 2)) =
      (2 * K - 1 + z ^ 2 - z * s) / (2 * (N + z ^ 2)) := by
    field_simp
    ring
  constructor
  · rw [hlo_eq]
    apply div_nonneg _ hdenom.le
    linarith
  · rw [hlo_eq, div_le_one hdenom]
    linarith

theorem wilsoncc_hi_core (N K z : ℝ) (hN : 1 ≤ N) (hK0 : 0 ≤ K)
    (hKN1 : K ≤ N - 1) :
    0 ≤ (2 * N * (K / N) + z ^ 2) / (2 * (N + z ^ 2)) +
        (1 + z * Real.sqrt (z ^ 2 + 2 - 1 / N + 4 * (K / N) * (N * (1 - K / N) - 1))) /
          (2 * (N + z ^ 2)) ∧
      (2 * N * (K / N) + z ^ 2) / (2 * (N + z ^ 2)) +
        (1 + z * Real.sqrt (z ^ 2 + 2 - 1 / N + 4 * (K / N) * (N * (1 - K / N) - 1))) /
          (2 * (N + z ^ 2)) ≤ 1 := by
  have hN0 : (0 : ℝ) < N := lt_of_lt_of_le zero_lt_one hN
  have hNne : N ≠ 0 := ne_of_gt hN0
  have harg : z ^ 2 + 2 - 1 / N + 4 * (K / N) * (N * (1 - K / N) - 1) =
      (N * z ^ 2 + 2 * N - 1 + 4 * K * (N - K - 1)) / N := by
    field_simp
    ring
  have hargn : 0 ≤ z ^ 2 + 2 - 1 / N + 4 * (K / N) * (N * (1 - K / N) - 1) := by
    rw [harg]
    apply div_nonneg _ hN0.le
    nlinarith [mul_nonneg hK0 (by linarith : (0:ℝ) ≤ N - K - 1), sq_nonneg z]
  set s := Real.sqrt (z ^ 2 + 2 - 1 / N + 4 * (K / N) * (N * (1 - K / N) - 1))
    with hs_def
  have hs0 : 0 ≤ s := Real.sqrt_nonneg _
  have hdenom : (0 : ℝ) < 2 * (N + z ^ 2) := by nlinarith [sq_nonneg z]
  have hsqA : ∀ w : ℝ, w ^ 2 = z ^ 2 →
      w ^ 2 * (z ^ 2 + 2 - 1 / N + 4 * (K / N) * (N * (1 - K / N) - 1)) ≤
        (2 * K + 1 + z ^ 2) ^ 2 := by
    intro w hw
    rw [hw, harg, ← mul_div_assoc, div_le_iff₀ hN0]
    nlinarith [mul_nonneg hN0.le (sq_nonneg (2 * K + 1)),
      mul_nonneg (sq_nonneg z) (sq_nonneg (2 * K + 1))]
  have hsqB : ∀ w : ℝ, w ^ 2 = z ^ 2 →
      w ^ 2 * (z ^ 2 + 2 - 1 / N + 4 * (K / N) * (N * (1 - K / N) - 1)) ≤
        (2 * (N - K) - 1 + z ^ 2) ^ 2 := by
    intro w hw
    rw [hw, harg, ← mul_div_assoc, div_le_iff₀ hN0]
    nlinarith [mul_nonneg hN0.le (sq_nonneg (2 * (N - K) - 1)),
      mul_nonneg (sq_nonneg z) (sq_nonneg (2 * (N - K) - 1))]
  have hB1 : (0 : ℝ) ≤ 2 * K + 1 + z ^ 2 := by nlinarith [sq_nonneg z]
  have hB2 : (0 : ℝ) ≤ 2 * (N - K) - 1 + z ^ 2 := by nlinarith [sq_nonneg z]
  have h1 : -(2 * K + 1 + z ^ 2) ≤ z * s := by
    have := mul_sqrt_le hB1 (hsqA (-z) (neg_sq z))
    linarith
  have h2 : z * s ≤ 2 * (N - K) - 1 + z ^ 2 := mul_sqrt_le hB2 (hsqB z rfl)
  have hhi_eq : (2 * N * (K / N) + z ^ 2) / (2 * (N + z ^ 2)) +
      (1 + z * s) / (2 * (N + z ^ 2)) =
      (2 * K + 1 + z ^ 2 + z * s) / (2 * (N + z ^ 2)) := by
    field_simp
    ring
  constructor
  · rw [hhi_eq]
    apply div_nonneg _ hdenom.le
    linarith
  · rw [hhi_eq, div_le_one hdenom]
    linarith

end Binomtest

namespace Binomtest

theorem wilson_conf_int_bounds (ndtri : ℝ → ℝ) (k n : ℕ) (cl : ℝ)
    (alternative : String) (correction : Bool) (hn : 1 ≤ n) (hk : k ≤ n)
    (halt : alternative = "two-sided" ∨ alternative = "less" ∨
      alternative = "greater")
    (hnd : ∀ x : ℝ, 1/2 ≤ x → 0 ≤ ndtri x) (hcl0 : 0 ≤ cl) :
    0 ≤ (binom_wilson_conf_int ndtri k n cl alternative correction).1 ∧
      (binom_wilson_conf_int ndtri k n cl alternative correction).1 ≤
        (binom_wilson_conf_int ndtri k n cl alternative correction).2 ∧
      (binom_wilson_conf_int ndtri k n cl alternative correction).2 ≤ 1 := by
  have hnR : (1 : ℝ) ≤ (n : ℝ) := by exact_mod_cast hn
  have hkR0 : (0 : ℝ) ≤ (k : ℝ) := Nat.cast_nonneg k
  have hkRN : (k : ℝ) ≤ (n : ℝ) := by exact_mod_cast hk
  have hkN1 : ¬(k = n) → (k : ℝ) ≤ (n : ℝ) - 1 := by
    intro hkn
    have : ((k + 1 : ℕ) : ℝ) ≤ (n : ℝ) := by exact_mod_cast (by omega : k + 1 ≤ n)
    push_cast at this
    linarith
  have hk1R : ¬(k = 0) → (1 : ℝ) ≤ (k : ℝ) := by
    intro hk0
    exact_mod_cast (by omega : 1 ≤ k)
  rcases halt with ha | ha | ha <;> subst ha
  · -- two-sided
    have hz : 0 ≤ ndtri (0.5 + 0.5 * cl) := hnd _ (by linarith)
    have hden : (0 : ℝ) < 2 * ((n : ℝ) + ndtri (0.5 + 0.5 * cl) ^ 2) := by
      nlinarith [sq_nonneg (ndtri (0.5 + 0.5 * cl))]
    cases correction
    · simp [binom_wilson_conf_int]
      obtain ⟨w1, w2, w3, w4⟩ :=
        wilson_plain_core (n : ℝ) (k : ℝ) (ndtri (0.5 + 0.5 * cl)) hnR hkR0 hkRN
      by_cases hk0 : k = 0
      · rw [if_pos hk0, if_neg (show ¬(k = n) by omega)]
        exact ⟨le_refl 0, w3, w4⟩
      · by_cases hkn : k = n
        · rw [if_neg hk0, if_pos hkn]
          exact ⟨w1, w2, le_refl 1⟩
        · rw [if_neg hk0, if_neg hkn]
          refine ⟨w1, ?_, w4⟩
          have hdelta : 0 ≤ ndtri (0.5 + 0.5 * cl) /
              (2 * ((n : ℝ) + ndtri (0.5 + 0.5 * cl) ^ 2)) *
              Real.sqrt (4 * (n : ℝ) * ((k : ℝ) / (n : ℝ)) *
                (1 - (k : ℝ) / (n : ℝ)) + ndtri (0.5 + 0.5 * cl) ^ 2) :=
            mul_nonneg (div_nonneg hz hden.le) (Real.sqrt_nonneg _)
          linarith
    · simp [binom_wilson_conf_int]
      simp only [← one_div]
      by_cases hk0 : k = 0
      · rw [if_pos hk0, if_neg (show ¬(k = n) by omega)]
        obtain ⟨c3, c4⟩ := wilsoncc_hi_core (n : ℝ) (k : ℝ)
          (ndtri (0.5 + 0.5 * cl)) hnR hkR0 (hkN1 (by omega))
        exact ⟨le_refl 0, c3, c4⟩
      · obtain ⟨c1, c2⟩ := wilsoncc_lo_core (n : ℝ) (k : ℝ)
          (ndtri (0.5 + 0.5 * cl)) hnR (hk1R hk0) hkRN
        by_cases hkn : k = n
        · rw [if_neg hk0, if_pos hkn]
          exact ⟨c1, c2, le_refl 1⟩
        · rw [if_neg hk0, if_neg hkn]
          obtain ⟨c3, c4⟩ := wilsoncc_hi_core (n : ℝ) (k : ℝ)
            (ndtri (0.5 + 0.5 * cl)) hnR hkR0 (hkN1 hkn)
          refine ⟨c1, ?_, c4⟩
          have hs1 := Real.sqrt_nonneg (ndtri (0.5 + 0.5 * cl) ^ 2 - 2 -
            1 / (n : ℝ) + 4 * ((k : ℝ) / (n : ℝ)) *
              ((n : ℝ) * (1 - (k : ℝ) / (n : ℝ)) + 1))
          have hs2 := Real.sqrt_nonneg (ndtri (0.5 + 0.5 * cl) ^ 2 + 2 -
            1 / (n : ℝ) + 4 * ((k : ℝ) / (n : ℝ)) *
              ((n : ℝ) * (1 - (k : ℝ) / (n : ℝ)) - 1))
          have hm1 := mul_nonneg hz hs1
          have hm2 := mul_nonneg hz hs2
          have hd1 : 0 ≤ (1 + ndtri (0.5 + 0.5 * cl) *
              Real.sqrt (ndtri (0.5 + 0.5 * cl) ^ 2 - 2 - 1 / (n : ℝ) +
                4 * ((k : ℝ) / (n : ℝ)) * ((n : ℝ) * (1 - (k : ℝ) / (n : ℝ)) + 1))) /
              (2 * ((n : ℝ) + ndtri (0.5 + 0.5 * cl) ^ 2)) :=
            div_nonneg (by linarith) hden.le
          have hd2 : 0 ≤ (1 + ndtri (0.5 + 0.5 * cl) *
              Real.sqrt (ndtri (0.5 + 0.5 * cl) ^ 2 + 2 - 1 / (n : ℝ) +
                4 * ((k : ℝ) / (n : ℝ)) * ((n : ℝ) * (1 - (k : ℝ) / (n : ℝ)) - 1))) /
              (2 * ((n : ℝ) + ndtri (0.5 + 0.5 * cl) ^ 2)) :=
            div_nonneg (by linarith) hden.le
          linarith
  · -- less
    cases correction
    · simp [binom_wilson_conf_int]
      obtain ⟨w1, w2, w3, w4⟩ :=
        wilson_plain_core (n : ℝ) (k : ℝ) (ndtri cl) hnR hkR0 hkRN
      by_cases hkn : k = n
      · rw [if_pos hkn]
        norm_num
      · rw [if_neg hkn]
        exact ⟨w3, w4⟩
    · simp [binom_wilson_conf_int]
      simp only [← one_div]
      by_cases hkn : k = n
      · rw [if_pos hkn]
        norm_num
      · rw [if_neg hkn]
        obtain ⟨c3, c4⟩ := wilsoncc_hi_core (n : ℝ) (k : ℝ) (ndtri cl) hnR hkR0
          (hkN1 hkn)
        exact ⟨c3, c4⟩
  · -- greater
    cases correction
    · simp [binom_wilson_conf_int]
      obtain ⟨w1, w2, w3, w4⟩ :=
        wilson_plain_core (n : ℝ) (k : ℝ) (ndtri cl) hnR hkR0 hkRN
      by_cases hk0 : k = 0
      · rw [if_pos hk0]
        norm_num
      · rw [if_neg hk0]
        exact ⟨w1, w2⟩
    · simp [binom_wilson_conf_int]
      simp only [← one_div]
      by_cases hk0 : k = 0
      · rw [if_pos hk0]
        norm_num
      · rw [if_neg hk0]
        obtain ⟨c1, c2⟩ := wilsoncc_lo_core (n : ℝ) (k : ℝ) (ndtri cl) hnR
          (hk1R hk0) hkRN
        exact ⟨c1, c2⟩

end Binomtest

namespace Binomtest

/-! ## Strict antitonicity of `p ↦ cdf(k; n, p)` via Bernstein polynomials -/

/-- The polynomial in `p` whose value is `cdf(k; n, p)`. -/
noncomputable def cdfPoly (n k : ℕ) : Polynomial ℝ :=
  ∑ ν ∈ Finset.range (k + 1), bernsteinPolynomial ℝ n ν

theorem cdfPoly_eval (n k : ℕ) (hk : k ≤ n) (p : ℝ) :
    (cdfPoly n k).eval p = binomCdf n p (k : ℤ) := by
  unfold cdfPoly binomCdf
  have hfilter : Finset.range (k + 1) =
      (Finset.range (n + 1)).filter (fun j : ℕ => (j : ℤ) ≤ (k : ℤ)) := by
    ext j
    simp only [Finset.mem_range, Finset.mem_filter]
    constructor
    · intro hj
      refine ⟨by omega, ?_⟩
      exact_mod_cast (by omega : j ≤ k)
    · intro hj
      have : j ≤ k := by exact_mod_cast hj.2
      omega
  rw [Polynomial.eval_finset_sum, ← Finset.sum_filter, ← hfilter]
  apply Finset.sum_congr rfl
  intro j hj
  rw [Finset.mem_range] at hj
  unfold binomPmf
  rw [if_pos ⟨Int.natCast_nonneg j, by exact_mod_cast (by omega : j ≤ n)⟩,
    Int.toNat_natCast]
  simp [bernsteinPolynomial]

theorem cdfPoly_derivative (n k : ℕ) :
    (cdfPoly n k).derivative =
      -((n : Polynomial ℝ) * bernsteinPolynomial ℝ (n - 1) k) := by
  induction k with
  | zero =>
    unfold cdfPoly
    rw [Finset.sum_range_one, bernsteinPolynomial.derivative_zero]
    ring
  | succ k ih =>
    unfold cdfPoly at *
    rw [Finset.sum_range_succ, Polynomial.derivative_add, ih,
      bernsteinPolynomial.derivative_succ]
    ring

theorem bernstein_eval_pos {n ν : ℕ} (hν : ν ≤ n) {x : ℝ} (hx : 0 < x)
    (hx1 : x < 1) : 0 < (bernsteinPolynomial ℝ n ν).eval x := by
  simp only [bernsteinPolynomial, Polynomial.eval_mul, Polynomial.eval_pow,
    Polynomial.eval_natCast, Polynomial.eval_sub, Polynomial.eval_one,
    Polynomial.eval_X]
  have hc : 0 < (n.choose ν : ℝ) := by exact_mod_cast Nat.choose_pos hν
  have h1x : (0 : ℝ) < 1 - x := by linarith
  positivity

theorem binomCdf_strictAntiOn (n k : ℕ) (hk : k < n) :
    StrictAntiOn (fun p : ℝ => binomCdf n p (k : ℤ)) (Set.Icc 0 1) := by
  have hpoly : StrictAntiOn (fun p : ℝ => (cdfPoly n k).eval p)
      (Set.Icc (0 : ℝ) 1) := by
    apply strictAntiOn_of_deriv_neg (convex_Icc 0 1)
    · exact (Polynomial.continuous _).continuousOn
    · intro x hx
      rw [interior_Icc, Set.mem_Ioo] at hx
      rw [Polynomial.deriv, cdfPoly_derivative]
      simp only [Polynomial.eval_neg, Polynomial.eval_mul, Polynomial.eval_natCast]
      have hpos := bernstein_eval_pos (show k ≤ n - 1 by omega) hx.1 hx.2
      have hn0 : (0 : ℝ) < (n : ℝ) := by
        exact_mod_cast (by omega : 0 < n)
      nlinarith
  intro x hx y hy hxy
  have h2 := hpoly hx hy hxy
  simp only [cdfPoly_eval n k (le_of_lt hk)] at h2
  exact h2

end Binomtest

namespace Binomtest

theorem findp_ok_inv {brentq : (ℝ → ℝ) → BrentqResult} {func : ℝ → ℝ} {r : ℝ}
    (h : findp brentq func = .ok r) : brentq func = .root r := by
  unfold findp at h
  cases hb : brentq func <;> rw [hb] at h
  · injection h with h'
    rw [h']
  · exact Except.noConfusion h
  · exact Except.noConfusion h

theorem pure_eq_ok {α : Type} (a : α) :
    (pure a : Except PyError α) = Except.ok a := rfl

theorem map_error_py {α β : Type} (f : α → β) (e : PyError) :
    (f <$> (Except.error e : Except PyError α)) = Except.error e := rfl

theorem map_ok_py {α β : Type} (f : α → β) (a : α) :
    (f <$> (Except.ok a : Except PyError α)) = Except.ok (f a) := rfl

theorem map_ok_inv {α β : Type} {f : α → β} {e : Except PyError α} {b : β}
    (h : (f <$> e) = Except.ok b) : ∃ a, e = Except.ok a ∧ f a = b := by
  cases e with
  | error err =>
    rw [map_error_py] at h
    exact Except.noConfusion h
  | ok a =>
    rw [map_ok_py] at h
    injection h with h'
    exact ⟨a, rfl, h'⟩

theorem bind_ok_inv {α β : Type} {e : Except PyError α}
    {g : α → Except PyError β} {b : β} (h : (e >>= g) = Except.ok b) :
    ∃ a, e = Except.ok a ∧ g a = Except.ok b := by
  cases e with
  | error err =>
    rw [error_bind_py] at h
    exact Except.noConfusion h
  | ok a =>
    rw [ok_bind_py] at h
    exact ⟨a, rfl, h⟩

theorem binomCdf_split {K : Type} [LinearOrderedField K] (n : ℕ) (p : K)
    (x : ℤ) (hx0 : 0 ≤ x) (hxn : x ≤ (n : ℤ)) :
    binomCdf n p x = binomCdf n p (x - 1) + binomPmf n p x := by
  unfold binomCdf
  have hterm : ∀ j ∈ Finset.range (n + 1),
      (if (j : ℤ) ≤ x then binomPmf n p j else 0) =
        (if (j : ℤ) ≤ x - 1 then binomPmf n p j else 0) +
          (if (j : ℤ) = x then binomPmf n p j else 0) := by
    intro j _
    by_cases h1 : (j : ℤ) = x
    · rw [if_pos h1, if_pos (le_of_eq h1), if_neg (by omega), zero_add]
    · by_cases h2 : (j : ℤ) ≤ x - 1
      · rw [if_pos h2, if_pos (by omega), if_neg h1, add_zero]
      · rw [if_neg h1, if_neg h2, if_neg (by omega), add_zero]
  rw [Finset.sum_congr rfl hterm, Finset.sum_add_distrib]
  congr 1
  rw [Finset.sum_eq_single x.toNat]
  · rw [Int.toNat_of_nonneg hx0, if_pos rfl]
  · intro j _ hj
    rw [if_neg]
    intro hcon
    exact hj (by omega)
  · intro hmem
    exact absurd (Finset.mem_range.mpr (by omega)) hmem

theorem exact_conf_int_bounds {brentq : (ℝ → ℝ) → BrentqResult} {k n : ℕ}
    {cl : ℝ} {alternative : String} {lo hi : ℝ}
    (hn : 1 ≤ n) (hk : k ≤ n) (hcl0 : 0 ≤ cl) (hcl1 : cl ≤ 1)
    (halt : alternative = "two-sided" ∨ alternative = "less" ∨
      alternative = "greater")
    (hbq : ∀ (f : ℝ → ℝ) (r : ℝ), brentq f = .root r →
      0 ≤ r ∧ r ≤ 1 ∧ f r = 0)
    (h : binom_exact_conf_int brentq k n cl alternative = .ok (lo, hi)) :
    0 ≤ lo ∧ lo ≤ hi ∧ hi ≤ 1 := by
  rcases halt with ha | ha | ha <;> subst ha <;>
    simp [binom_exact_conf_int] at h
  · -- two-sided
    by_cases hk0 : k = 0
    · rw [if_pos hk0, if_neg (show ¬(k = n) by omega)] at h
      obtain ⟨b, heb, hfb⟩ := map_ok_inv h
      obtain ⟨hb0, hb1, _⟩ := hbq _ _ (findp_ok_inv heb)
      injection hfb with h1 h2
      constructor
      · rw [← h1]
      · rw [← h1, ← h2]
        exact ⟨hb0, hb1⟩
    · rw [if_neg hk0] at h
      obtain ⟨a, hea, hrest⟩ := bind_ok_inv h
      obtain ⟨ha0, ha1, hroota⟩ := hbq _ _ (findp_ok_inv hea)
      have hsfa : binomSf n a ((k : ℤ) - 1) = (1 - cl) / 2 := by
        have h' : binomSf n a ((k : ℤ) - 1) - (1 - cl) / 2 = 0 := hroota
        linarith
      by_cases hkn : k = n
      · rw [if_pos hkn, pure_eq_ok] at hrest
        injection hrest with h'
        injection h' with h1 h2
        rw [← h1, ← h2]
        exact ⟨ha0, ha1, le_refl 1⟩
      · rw [if_neg hkn] at hrest
        obtain ⟨b, heb, hfb⟩ := map_ok_inv hrest
        obtain ⟨hb0, hb1, hrootb⟩ := hbq _ _ (findp_ok_inv heb)
        have hcdfb : binomCdf n b (k : ℤ) = (1 - cl) / 2 := by
          have h' : binomCdf n b (k : ℤ) - (1 - cl) / 2 = 0 := hrootb
          linarith
        injection hfb with h1 h2
        rw [← h1, ← h2]
        refine ⟨ha0, ?_, hb1⟩
        -- a ≤ b via strict antitonicity of cdf(k; n, ·)
        have hkn' : k < n := by omega
        have hanti := binomCdf_strictAntiOn n k hkn'
        have hadd := binomCdf_add_binomSf n a ((k : ℤ) - 1)
        have hsplit := binomCdf_split n a (k : ℤ) (by omega)
          (by exact_mod_cast hk)
        have hpmf := binomPmf_nonneg ha0 ha1 n (k : ℤ)
        by_contra hab
        push_neg at hab
        have hlt := hanti (Set.mem_Icc.mpr ⟨hb0, hb1⟩)
          (Set.mem_Icc.mpr ⟨ha0, ha1⟩) hab
        simp only at hlt
        rw [hcdfb] at hlt
        -- hlt : cdf(k; n, a) < (1 - cl)/2, yet cdf(k; n, a) ≥ 1 - (1-cl)/2
        linarith
  · -- less
    by_cases hkn : k = n
    · rw [if_pos hkn, pure_eq_ok] at h
      injection h with h'
      injection h' with h1 h2
      rw [← h1, ← h2]
      norm_num
    · rw [if_neg hkn] at h
      obtain ⟨b, heb, hfb⟩ := map_ok_inv h
      obtain ⟨hb0, hb1, _⟩ := hbq _ _ (findp_ok_inv heb)
      injection hfb with h1 h2
      rw [← h1, ← h2]
      exact ⟨le_refl 0, hb0, hb1⟩
  · -- greater
    by_cases hk0 : k = 0
    · rw [if_pos hk0, pure_eq_ok] at h
      injection h with h'
      injection h' with h1 h2
      rw [← h1, ← h2]
      norm_num
    · rw [if_neg hk0] at h
      obtain ⟨a, hea, hfa⟩ := map_ok_inv h
      obtain ⟨ha0, ha1, _⟩ := hbq _ _ (findp_ok_inv hea)
      injection hfa with h1 h2
      rw [← h1, ← h2]
      exact ⟨ha0, ha1, le_refl 1⟩

end Binomtest

namespace Binomtest

theorem exmap_error {α β : Type} (f : α → β) (e : PyError) :
    (Except.error e : Except PyError α).map f = Except.error e := rfl

theorem exmap_ok {α β : Type} (f : α → β) (a : α) :
    (Except.ok a : Except PyError α).map f = Except.ok (f a) := rfl

/-- C1: for every call to `proportion_ci` on a `TestResult` produced by
`binomtest`, with one of the three recognised methods and a confidence level
in `[0, 1]` (both enforced by validation), any returned `ConfidenceInterval`
satisfies `0 ≤ low ≤ high ≤ 1`.  The external oracles are constrained by
their documented contracts: `brentq` returns a root of its argument inside
the bracket `[0, 1]`, and `ndtri` is nonnegative on `[1/2, ∞)`. -/
theorem c1_proportion_ci_bounds {k n : ℕ} {p : ℚ} {alternative : String}
    {r : BinomTestResult} (brentq : (ℝ → ℝ) → BrentqResult) (ndtri : ℝ → ℝ)
    {cl : ℝ} {method : String} {ci : ConfidenceInterval}
    (hr : binomtest k n p alternative = .ok r)
    (hnd : ∀ x : ℝ, 1/2 ≤ x → 0 ≤ ndtri x)
    (hbq : ∀ (f : ℝ → ℝ) (r' : ℝ), brentq f = .root r' →
      0 ≤ r' ∧ r' ≤ 1 ∧ f r' = 0)
    (hci : proportion_ci brentq ndtri r.k r.n r.alternative cl method = .ok ci) :
    0 ≤ ci.low ∧ ci.low ≤ ci.high ∧ ci.high ≤ 1 := by
  obtain ⟨hn, hk, _, _, halt, hreq⟩ := binomtest_ok_inv hr
  subst hreq
  unfold proportion_ci at hci
  split_ifs at hci with h1 h2 h3
  · -- method = "exact"
    cases he : binom_exact_conf_int brentq k n cl alternative with
    | error e =>
      rw [he, exmap_error] at hci
      exact Except.noConfusion hci
    | ok lh =>
      rw [he, exmap_ok] at hci
      injection hci with h'
      have hb := exact_conf_int_bounds hn hk h2.1 h2.2 halt hbq
        (show binom_exact_conf_int brentq k n cl alternative =
          .ok (lh.1, lh.2) from he)
      rw [← h']
      exact hb
  · -- method is "wilson" or "wilsoncc"
    injection hci with h'
    have hb := wilson_conf_int_bounds ndtri k n cl alternative
      (decide (method = "wilsoncc")) hn hk halt hnd h2.1
    rw [← h']
    exact hb

/-- C1 witness: the Wilson interval at `k=1`, `n=2`, `confidence_level=1/2`
with the trivial `ndtri` model. -/
theorem c1_witness :
    ∃ ci, proportion_ci (fun _ => BrentqResult.runtimeError PyError.unboundLocalError)
        (fun _ => 0) 1 2 "two-sided" (1/2) "wilson" = .ok ci ∧
      0 ≤ ci.low ∧ ci.low ≤ ci.high ∧ ci.high ≤ 1 := by
  have hr : binomtest 1 2 (1/2) "two-sided" =
      .ok ⟨1, 2, "two-sided", binomPval 1 2 (1/2) "two-sided", 1/2⟩ := by
    unfold binomtest
    rw [if_neg (by norm_num), if_neg (by norm_num), if_neg (by norm_num),
      if_neg (by decide)]
    norm_num
  have hci : proportion_ci
      (fun _ => BrentqResult.runtimeError PyError.unboundLocalError)
      (fun _ => 0) 1 2 "two-sided" (1/2) "wilson" =
      .ok ⟨(1:ℝ)/2, (1:ℝ)/2⟩ := by
    unfold proportion_ci
    rw [if_neg (by norm_num), if_neg (by norm_num), if_neg (by decide)]
    simp [binom_wilson_conf_int]
  refine ⟨⟨(1:ℝ)/2, (1:ℝ)/2⟩, hci, ?_⟩
  exact c1_proportion_ci_bounds
    (fun _ => BrentqResult.runtimeError PyError.unboundLocalError)
    (fun _ => 0) hr (fun x _ => le_refl 0)
    (fun f r' hcon => BrentqResult.noConfusion hcon) hci

end Binomtest

namespace Binomtest

/-! ## Reflection identities and monotonicity of the binomial PMF -/

theorem binomPmf_mirror {K : Type} [LinearOrderedField K] (n : ℕ) (p : K)
    (x : ℤ) : binomPmf n (1 - p) x = binomPmf n p ((n : ℤ) - x) := by
  unfold binomPmf
  by_cases hx : 0 ≤ x ∧ x ≤ (n : ℤ)
  · rw [if_pos hx, if_pos (by omega)]
    obtain ⟨hx0, hxn⟩ := hx
    have ha : x.toNat ≤ n := by omega
    have h1 : ((n : ℤ) - x).toNat = n - x.toNat := by omega
    have h2 : n - (n - x.toNat) = x.toNat := by omega
    rw [h1, Nat.choose_symm ha, sub_sub_cancel, h2]
    ring
  · rw [if_neg hx, if_neg (by omega)]

theorem binomCdf_mirror {K : Type} [LinearOrderedField K] (n : ℕ) (p : K)
    (x : ℤ) : binomCdf n (1 - p) x = binomSf n p ((n : ℤ) - x - 1) := by
  unfold binomCdf binomSf
  conv_rhs => rw [← Finset.sum_range_reflect]
  apply Finset.sum_congr rfl
  intro j hj
  rw [Finset.mem_range] at hj
  have hjn : j ≤ n := by omega
  have hc : ((n + 1 - 1 - j : ℕ) : ℤ) = (n : ℤ) - j := by omega
  by_cases hcond : (j : ℤ) ≤ x
  · rw [if_pos hcond, if_pos (by omega), binomPmf_mirror]
    congr 1
    omega
  · rw [if_neg hcond, if_neg (by omega)]

theorem binomSf_mirror {K : Type} [LinearOrderedField K] (n : ℕ) (p : K)
    (x : ℤ) : binomSf n (1 - p) x = binomCdf n p ((n : ℤ) - x - 1) := by
  have h1 := binomCdf_add_binomSf n (1 - p) x
  have h2 := binomCdf_add_binomSf n p ((n : ℤ) - x - 1)
  have h3 := binomCdf_mirror n p x
  linarith

theorem binomPmf_pos {n : ℕ} {p : ℚ} (hp0 : 0 < p) (hp1 : p < 1) {x : ℤ}
    (hx0 : 0 ≤ x) (hxn : x ≤ (n : ℤ)) : 0 < binomPmf n p x := by
  unfold binomPmf
  rw [if_pos ⟨hx0, hxn⟩]
  have hc : 0 < (n.choose x.toNat : ℚ) := by
    exact_mod_cast Nat.choose_pos (show x.toNat ≤ n by omega)
  have hq : (0 : ℚ) < 1 - p := by linarith
  positivity

theorem binomPmf_succ_mul (n : ℕ) (p : ℚ) (j : ℕ) (hj : j < n) :
    (1 - p) * ((j : ℚ) + 1) * binomPmf n p ((j : ℤ) + 1) =
      p * ((n : ℚ) - (j : ℚ)) * binomPmf n p (j : ℤ) := by
  unfold binomPmf
  rw [if_pos ⟨by omega, by exact_mod_cast (by omega : (j : ℤ) + 1 ≤ (n : ℤ))⟩,
    if_pos ⟨Int.natCast_nonneg j, by exact_mod_cast (by omega : j ≤ n)⟩]
  have h1 : ((j : ℤ) + 1).toNat = j + 1 := by omega
  rw [h1, Int.toNat_natCast]
  have hch : ((n.choose (j + 1) * (j + 1) : ℕ) : ℚ) =
      ((n.choose j * (n - j) : ℕ) : ℚ) := by
    exact_mod_cast congrArg (fun m : ℕ => (m : ℚ)) (Nat.choose_succ_right_eq n j)
  push_cast [Nat.cast_sub (le_of_lt hj)] at hch
  have he1 : n - j = (n - (j + 1)) + 1 := by omega
  rw [he1, pow_succ, pow_succ]
  linear_combination (p ^ j * p * (1 - p) ^ (n - (j + 1)) * (1 - p)) * hch

theorem binomPmf_step_lt {n : ℕ} {p : ℚ} (hp0 : 0 < p) (hp1 : p < 1) {x : ℤ}
    (hx0 : 0 ≤ x) (hxn : x < (n : ℤ)) (hcond : p * ((n : ℚ) + 1) < (x : ℚ) + 1) :
    binomPmf n p (x + 1) < binomPmf n p x := by
  have hj : x.toNat < n := by omega
  have hx' : ((x.toNat : ℕ) : ℤ) = x := Int.toNat_of_nonneg hx0
  have heq := binomPmf_succ_mul n p x.toNat hj
  rw [hx'] at heq
  have hxq : ((x.toNat : ℕ) : ℚ) = ((x : ℤ) : ℚ) := by
    exact_mod_cast congrArg (fun z : ℤ => (z : ℚ)) hx'
  rw [hxq] at heq
  have hpmf : 0 < binomPmf n p x := binomPmf_pos hp0 hp1 hx0 (by omega)
  have hlt : p * ((n : ℚ) - ((x : ℤ) : ℚ)) < (1 - p) * (((x : ℤ) : ℚ) + 1) := by
    nlinarith
  have hfac : (0 : ℚ) < (1 - p) * (((x : ℤ) : ℚ) + 1) := by
    have : (0 : ℚ) ≤ ((x : ℤ) : ℚ) := by exact_mod_cast hx0
    nlinarith
  by_contra hcon
  push_neg at hcon
  nlinarith [mul_le_mul_of_nonneg_left hcon (le_of_lt hfac)]

theorem binomPmf_step_le {n : ℕ} {p : ℚ} (hp0 : 0 < p) (hp1 : p < 1) {x : ℤ}
    (hx0 : 0 ≤ x) (hxn : x < (n : ℤ)) (hcond : (x : ℚ) + 1 ≤ p * ((n : ℚ) + 1)) :
    binomPmf n p x ≤ binomPmf n p (x + 1) := by
  have hj : x.toNat < n := by omega
  have hx' : ((x.toNat : ℕ) : ℤ) = x := Int.toNat_of_nonneg hx0
  have heq := binomPmf_succ_mul n p x.toNat hj
  rw [hx'] at heq
  have hxq : ((x.toNat : ℕ) : ℚ) = ((x : ℤ) : ℚ) := by
    exact_mod_cast congrArg (fun z : ℤ => (z : ℚ)) hx'
  rw [hxq] at heq
  have hpmf : 0 < binomPmf n p x := binomPmf_pos hp0 hp1 hx0 (by omega)
  have hge : (1 - p) * (((x : ℤ) : ℚ) + 1) ≤ p * ((n : ℚ) - ((x : ℤ) : ℚ)) := by
    nlinarith
  have hfac : (0 : ℚ) < (1 - p) * (((x : ℤ) : ℚ) + 1) := by
    have : (0 : ℚ) ≤ ((x : ℤ) : ℚ) := by exact_mod_cast hx0
    nlinarith
  by_contra hcon
  push_neg at hcon
  nlinarith [mul_lt_mul_of_pos_left hcon hfac]

theorem binomPmf_decr_chain {n : ℕ} {p : ℚ} (hp0 : 0 < p) (hp1 : p < 1)
    (x : ℤ) (hx : ⌈p * (n : ℚ)⌉ ≤ x) :
    ∀ y : ℤ, x + 1 ≤ y → y ≤ (n : ℤ) → binomPmf n p y < binomPmf n p x := by
  have hx0 : 0 ≤ x := le_trans (Int.ceil_nonneg (by positivity)) hx
  have hstep : ∀ w : ℤ, x ≤ w → w < (n : ℤ) →
      binomPmf n p (w + 1) < binomPmf n p w := by
    intro w hw hwn
    apply binomPmf_step_lt hp0 hp1 (by omega) hwn
    have hcw : p * (n : ℚ) ≤ ((w : ℤ) : ℚ) := by
      have h1 := Int.ceil_le.mp (le_trans hx hw)
      exact_mod_cast h1
    nlinarith
  intro y hy
  refine @Int.le_induction
    (fun y => y ≤ (n : ℤ) → binomPmf n p y < binomPmf n p x) (x + 1) ?_ ?_ y hy
  · intro hxn
    exact hstep x (le_refl x) (by omega)
  · intro z hz ih hzn
    exact lt_trans (hstep z (by omega) (by omega)) (ih (by omega))

theorem binomPmf_decr_chain_le {n : ℕ} {p : ℚ} (hp0 : 0 < p) (hp1 : p < 1)
    (x y : ℤ) (hx : ⌈p * (n : ℚ)⌉ ≤ x) (hxy : x ≤ y) (hyn : y ≤ (n : ℤ)) :
    binomPmf n p y ≤ binomPmf n p x := by
  rcases eq_or_lt_of_le hxy with he | hlt
  · rw [he]
  · exact le_of_lt (binomPmf_decr_chain hp0 hp1 x hx y (by omega) hyn)

theorem binomPmf_runup {n : ℕ} {p : ℚ} (hp0 : 0 < p) (hp1 : p < 1)
    (k : ℤ) (hk0 : 0 ≤ k) :
    ∀ x : ℤ, k ≤ x → x ≤ ⌈p * (n : ℚ)⌉ - 1 → ⌈p * (n : ℚ)⌉ ≤ (n : ℤ) →
      binomPmf n p k ≤ binomPmf n p x := by
  intro x hx
  refine @Int.le_induction
    (fun x => x ≤ ⌈p * (n : ℚ)⌉ - 1 → ⌈p * (n : ℚ)⌉ ≤ (n : ℤ) →
      binomPmf n p k ≤ binomPmf n p x) k ?_ ?_ x hx
  · intro _ _
    exact le_refl _
  · intro z hz ih hzL hLn
    have hstep : binomPmf n p z ≤ binomPmf n p (z + 1) := by
      apply binomPmf_step_le hp0 hp1 (by omega) (by omega)
      have hceil : (⌈p * (n : ℚ)⌉ : ℚ) < p * (n : ℚ) + 1 := Int.ceil_lt_add_one _
      have hzq : ((z : ℤ) : ℚ) + 1 ≤ (⌈p * (n : ℚ)⌉ : ℚ) - 1 := by
        exact_mod_cast (by omega : z + 1 ≤ ⌈p * (n : ℚ)⌉ - 1)
      nlinarith
    exact le_trans (ih (by omega) hLn) hstep

theorem binomPmf_one_eq_zero {n : ℕ} {x : ℤ} (hx : 0 ≤ x) (hxn : x < (n : ℤ)) :
    binomPmf n (1 : ℚ) x = 0 := by
  unfold binomPmf
  have h1 : n - x.toNat ≠ 0 := by omega
  rw [if_pos ⟨hx, by omega⟩, sub_self, zero_pow h1, mul_zero]

theorem twoSidedRaw_symm {k n : ℕ} {p : ℚ} (hn : 1 ≤ n) (hk : k ≤ n)
    (hp0 : 0 ≤ p) (hp1 : p ≤ 1)
    (hcase : (k : ℚ) = p * n ∨
      ((k : ℚ) < p * n ∧ ∀ x : ℤ, ⌈p * (n : ℚ)⌉ - 1 ≤ x → x ≤ (n : ℤ) →
        (binomPmf n p x < binomPmf n p (k : ℤ) ∨
          binomPmf n p (k : ℤ) * (1 + 1 / 10000000) < binomPmf n p x))) :
    twoSidedRaw k n p = twoSidedRaw (n - k) n (1 - p) := by
  have hnkq : ((n - k : ℕ) : ℚ) = (n : ℚ) - (k : ℚ) := by
    rw [Nat.cast_sub hk]
  rcases hcase with hkeq | ⟨hklt, hband⟩
  · have hmir2 : ((n - k : ℕ) : ℚ) = (1 - p) * (n : ℚ) := by
      rw [hnkq, hkeq]
      ring
    have h1 : twoSidedRaw k n p = 1 := by
      simp only [twoSidedRaw]
      rw [if_pos hkeq]
    have h2 : twoSidedRaw (n - k) n (1 - p) = 1 := by
      simp only [twoSidedRaw]
      rw [if_pos hmir2]
    rw [h1, h2]
  · have hnq0 : (0 : ℚ) < (n : ℚ) := by exact_mod_cast hn
    have hkq0 : (0 : ℚ) ≤ (k : ℚ) := Nat.cast_nonneg k
    have hp0' : 0 < p := by nlinarith
    have hp1' : p < 1 := by
      by_contra hcon
      push_neg at hcon
      have hpe : p = 1 := le_antisymm hp1 hcon
      subst hpe
      have hkn : (k : ℤ) < (n : ℤ) := by
        have h : (k : ℚ) < (n : ℚ) := by linarith
        exact_mod_cast h
      have hL : ⌈(1 : ℚ) * (n : ℚ)⌉ = (n : ℤ) := by
        rw [one_mul]
        exact_mod_cast Int.ceil_natCast n
      have hb := hband ((n : ℤ) - 1) (by rw [hL]) (by omega)
      rw [binomPmf_one_eq_zero (by omega) (by omega),
        binomPmf_one_eq_zero (by omega) hkn] at hb
      rcases hb with hb | hb <;> norm_num at hb
    have hpn0 : (0 : ℚ) < p * n := lt_of_le_of_lt hkq0 hklt
    have hL1 : 0 < ⌈p * (n : ℚ)⌉ := Int.ceil_pos.mpr hpn0
    have hLn : ⌈p * (n : ℚ)⌉ ≤ (n : ℤ) := by
      apply Int.ceil_le.mpr
      push_cast
      nlinarith
    have hkL : (k : ℤ) < ⌈p * (n : ℚ)⌉ := by
      apply Int.lt_ceil.mpr
      push_cast
      exact hklt
    have hd0 : 0 < binomPmf n p (k : ℤ) :=
      binomPmf_pos hp0' hp1' (by omega) (by exact_mod_cast hk)
    have hdt : binomPmf n p (k : ℤ) <
        binomPmf n p (k : ℤ) * (1 + 1 / 10000000) := by nlinarith
    have htopbound : binomPmf n p (k : ℤ) * (1 + 1 / 10000000) <
        binomPmf n p (⌈p * (n : ℚ)⌉ - 1) := by
      have hrun := binomPmf_runup hp0' hp1' (k : ℤ) (by omega)
        (⌈p * (n : ℚ)⌉ - 1) (by omega) (le_refl _) hLn
      rcases hband (⌈p * (n : ℚ)⌉ - 1) (le_refl _) (by omega) with hb | hb
      · linarith
      · exact hb
    have S1 := binary_search_spec_aux (fun x1 => -binomPmf n p x1)
      (-binomPmf n p (k : ℤ) * (1 + 1 / 10000000)) ⌈p * (n : ℚ)⌉ (n : ℤ) false
      (fun x y hx hxy hy => by
        show -binomPmf n p x < -binomPmf n p y
        rw [neg_lt_neg_iff]
        exact binomPmf_decr_chain hp0' hp1' x hx y (by omega) (by omega))
      (Or.inr fun x hx hxn => by
        show -binomPmf n p x < -binomPmf n p (n : ℤ)
        rw [neg_lt_neg_iff]
        exact binomPmf_decr_chain hp0' hp1' x hx (n : ℤ) (by omega) (le_refl _))
      ((n : ℤ) - ⌈p * (n : ℚ)⌉).toNat ⌈p * (n : ℚ)⌉ (n : ℤ)
      (le_refl _) (le_refl _) hLn (by omega) (le_refl _)
      (fun x hx hx' => absurd hx (not_le.mpr hx'))
      (fun x hx hx' => absurd hx (not_lt.mpr hx'))
    obtain ⟨r1, hr1⟩ : ∃ r, binary_search_for_binom_tst
        (fun x1 => -binomPmf n p x1)
        (-binomPmf n p (k : ℤ) * (1 + 1 / 10000000)) ⌈p * (n : ℚ)⌉ (n : ℤ)
        false = r := ⟨_, rfl⟩
    rw [hr1] at S1
    simp only [SearchOut] at S1
    obtain ⟨h1a, h1b, h1c, h1d⟩ := S1
    have h1c' : ⌈p * (n : ℚ)⌉ ≤ r1 →
        binomPmf n p (k : ℤ) * (1 + 1 / 10000000) ≤ binomPmf n p r1 := by
      intro hx
      have h := h1c hx
      rw [neg_mul] at h
      exact neg_le_neg_iff.mp h
    have h1d' : r1 < (n : ℤ) →
        binomPmf n p (r1 + 1) < binomPmf n p (k : ℤ) * (1 + 1 / 10000000) := by
      intro hx
      have h := h1d hx
      rw [neg_mul] at h
      exact neg_lt_neg_iff.mp h
    have hmir : ∀ x : ℤ, binomPmf n (1 - p) x = binomPmf n p ((n : ℤ) - x) :=
      binomPmf_mirror n p
    have S2 := binary_search_spec_aux (fun x1 => binomPmf n (1 - p) x1)
      (binomPmf n p (k : ℤ) * (1 + 1 / 10000000)) 0
      ((n : ℤ) - ⌈p * (n : ℚ)⌉ + 1) true
      (fun x y hx hxy hy => by
        show binomPmf n (1 - p) x < binomPmf n (1 - p) y
        rw [hmir, hmir]
        exact binomPmf_decr_chain hp0' hp1' ((n : ℤ) - y) (by omega)
          ((n : ℤ) - x) (by omega) (by omega))
      (Or.inl (by
        show binomPmf n p (k : ℤ) * (1 + 1 / 10000000) <
          binomPmf n (1 - p) ((n : ℤ) - ⌈p * (n : ℚ)⌉ + 1)
        rw [hmir]
        have he : (n : ℤ) - ((n : ℤ) - ⌈p * (n : ℚ)⌉ + 1) = ⌈p * (n : ℚ)⌉ - 1 := by
          ring
        rw [he]
        exact htopbound))
      ((n : ℤ) - ⌈p * (n : ℚ)⌉ + 1 - 0).toNat 0 ((n : ℤ) - ⌈p * (n : ℚ)⌉ + 1)
      (le_refl _) (le_refl _) (by omega) (by omega) (le_refl _)
      (fun x hx hx' => absurd hx (not_le.mpr hx'))
      (fun x hx hx' => absurd hx (not_lt.mpr hx'))
    obtain ⟨r2, hr2⟩ : ∃ r, binary_search_for_binom_tst
        (fun x1 => binomPmf n (1 - p) x1)
        (binomPmf n p (k : ℤ) * (1 + 1 / 10000000)) 0
        ((n : ℤ) - ⌈p * (n : ℚ)⌉ + 1) true = r := ⟨_, rfl⟩
    rw [hr2] at S2
    simp only [SearchOut] at S2
    obtain ⟨h2a, h2b, h2c, h2d⟩ := S2
    have h2c' : 0 ≤ r2 → binomPmf n p ((n : ℤ) - r2) ≤
        binomPmf n p (k : ℤ) * (1 + 1 / 10000000) := by
      intro hx
      have h := h2c hx
      rwa [hmir] at h
    have h2d' : r2 < (n : ℤ) - ⌈p * (n : ℚ)⌉ + 1 →
        binomPmf n p (k : ℤ) * (1 + 1 / 10000000) <
          binomPmf n p ((n : ℤ) - r2 - 1) := by
      intro hx
      have h := h2d hx
      rw [hmir] at h
      have he : (n : ℤ) - (r2 + 1) = (n : ℤ) - r2 - 1 := by ring
      rwa [he] at h
    have hr2lt : r2 < (n : ℤ) - ⌈p * (n : ℚ)⌉ + 1 := by
      rcases lt_or_eq_of_le h2b with h | h
      · exact h
      · exfalso
        have h0r2 : 0 ≤ r2 := by omega
        have hc := h2c' h0r2
        rw [h] at hc
        have he : (n : ℤ) - ((n : ℤ) - ⌈p * (n : ℚ)⌉ + 1) = ⌈p * (n : ℚ)⌉ - 1 := by
          ring
        rw [he] at hc
        linarith
    have htj : binomPmf n p (k : ℤ) * (1 + 1 / 10000000) <
        binomPmf n p ((n : ℤ) - r2 - 1) := h2d' hr2lt
    have hkey : r1 = (n : ℤ) - r2 - 1 := by
      rcases lt_trichotomy r1 ((n : ℤ) - r2 - 1) with hlt1 | heq | hgt1
      · exfalso
        have h1 := h1d' (by omega)
        have hmono := @binomPmf_decr_chain_le n p hp0' hp1' (r1 + 1)
          ((n : ℤ) - r2 - 1) (by omega) (by omega) (by omega)
        linarith
      · exact heq
      · exfalso
        have h1 := h1c' (by omega)
        have h2 := h2c' (by omega)
        have he : (n : ℤ) - r2 = (n : ℤ) - r2 - 1 + 1 := by ring
        rw [he] at h2
        have hmono := @binomPmf_decr_chain_le n p hp0' hp1'
          ((n : ℤ) - r2 - 1 + 1) r1 (by omega) (by omega) (by omega)
        have hpeq : binomPmf n p r1 =
            binomPmf n p (k : ℤ) * (1 + 1 / 10000000) :=
          le_antisymm (by linarith) (by linarith)
        rcases hband r1 (by omega) (by omega) with hb | hb
        · linarith
        · linarith
    have hne1 : ¬((k : ℚ) = p * n) := ne_of_lt hklt
    have hlhs : twoSidedRaw k n p = binomCdf n p (k : ℤ) + binomSf n p r1 :=
      twoSidedRaw_left_eval hne1 hklt rfl hr1
    have hexp : (1 - p) * ((n : ℕ) : ℚ) = (n : ℚ) - p * n := by ring
    have hne2 : ¬(((n - k : ℕ) : ℚ) = (1 - p) * ((n : ℕ) : ℚ)) := by
      rw [hnkq, hexp]
      intro hcon
      linarith
    have hngt2 : ¬(((n - k : ℕ) : ℚ) < (1 - p) * ((n : ℕ) : ℚ)) := by
      rw [hnkq, hexp]
      intro hcon
      linarith
    have hFid : ⌊(1 - p) * ((n : ℕ) : ℚ)⌋ = (n : ℤ) - ⌈p * (n : ℚ)⌉ := by
      have hexp2 : (1 - p) * ((n : ℕ) : ℚ) =
          (((n : ℕ) : ℤ) : ℚ) + -(p * ((n : ℕ) : ℚ)) := by
        rw [Int.cast_natCast]
        ring
      rw [hexp2, Int.floor_int_add, Int.floor_neg]
      ring
    have hdmir : binomPmf n (1 - p) ((n - k : ℕ) : ℤ) = binomPmf n p (k : ℤ) := by
      rw [hmir]
      congr 1
      omega
    have hr2' : binary_search_for_binom_tst (fun x1 => binomPmf n (1 - p) x1)
        (binomPmf n (1 - p) ((n - k : ℕ) : ℤ) * (1 + 1 / 10000000)) 0
        ((n : ℤ) - ⌈p * (n : ℚ)⌉ + 1) true = r2 := by
      rw [hdmir]
      exact hr2
    have hrhs : twoSidedRaw (n - k) n (1 - p) =
        binomCdf n (1 - p) r2 + binomSf n (1 - p) (((n - k : ℕ) : ℤ) - 1) :=
      twoSidedRaw_right_eval hne2 hngt2 hFid hr2'
    rw [hlhs, hrhs, binomCdf_mirror, binomSf_mirror]
    have he1 : (n : ℤ) - (((n - k : ℕ) : ℤ) - 1) - 1 = (k : ℤ) := by omega
    rw [he1, hkey]
    ring

/-- C6 (amended): the two-sided p-value is symmetric under the reflection
`(k, p) ↦ (n - k, 1 - p)` whenever the shortcut `k = p*n` fires, or `k < p*n`
and no PMF value at or above `⌈p*n⌉ - 1` falls inside the half-open tolerance
band `[pmf(k), pmf(k)*(1 + 1e-7)]` around the reference value (by symmetry of
the statement this also settles the case `k > p*n`); an exact tie with the
inflated reference `pmf(k)*(1 + 1e-7)` breaks the symmetry, as the
counterexample shows. -/
theorem c6_two_sided_symmetry {k n : ℕ} {p : ℚ} {r s : BinomTestResult}
    (hr : binomtest k n p "two-sided" = .ok r)
    (hs : binomtest (n - k) n (1 - p) "two-sided" = .ok s)
    (hcase : (k : ℚ) = p * n ∨
      ((k : ℚ) < p * n ∧ ∀ x : ℤ, ⌈p * (n : ℚ)⌉ - 1 ≤ x → x ≤ (n : ℤ) →
        (binomPmf n p x < binomPmf n p (k : ℤ) ∨
          binomPmf n p (k : ℤ) * (1 + 1 / 10000000) < binomPmf n p x))) :
    r.pvalue = s.pvalue := by
  obtain ⟨hn, hk, hp0, hp1, _, hr'⟩ := binomtest_ok_inv hr
  obtain ⟨_, _, _, _, _, hs'⟩ := binomtest_ok_inv hs
  subst hr'
  subst hs'
  dsimp only
  rw [binomPval_two_sided, binomPval_two_sided,
    twoSidedRaw_symm hn hk hp0 hp1 hcase]

/-- C6 witness: the amended symmetry at `(k, n, p) = (0, 3, 4/5)` against
`(3, 3, 1/5)`, where the PMF band condition holds. -/
theorem c6_witness : ∃ r s : BinomTestResult,
    binomtest 0 3 (4/5) "two-sided" = .ok r ∧
    binomtest (3 - 0) 3 (1 - 4/5) "two-sided" = .ok s ∧
    r.pvalue = s.pvalue := by
  have hr : binomtest 0 3 (4/5) "two-sided" =
      .ok ⟨0, 3, "two-sided", binomPval 0 3 (4/5) "two-sided", 0⟩ := by
    unfold binomtest
    rw [if_neg (by norm_num), if_neg (by norm_num), if_neg (by norm_num),
      if_neg (by decide)]
    norm_num
  have hs : binomtest (3 - 0) 3 (1 - 4/5) "two-sided" =
      .ok ⟨3, 3, "two-sided", binomPval 3 3 (1 - 4/5) "two-sided", 1⟩ := by
    unfold binomtest
    rw [if_neg (by norm_num), if_neg (by norm_num), if_neg (by norm_num),
      if_neg (by decide)]
    norm_num
  refine ⟨_, _, hr, hs, c6_two_sided_symmetry hr hs (Or.inr ⟨by norm_num, ?_⟩)⟩
  intro x hx1 hx2
  have hL : ⌈(4/5 : ℚ) * ((3 : ℕ) : ℚ)⌉ = 3 := by
    rw [Int.ceil_eq_iff]
    norm_num
  rw [hL] at hx1
  right
  interval_cases x <;>
    norm_num [binomPmf, Nat.choose, show (2 : ℤ).toNat = 2 from rfl,
      show (3 : ℤ).toNat = 3 from rfl]

/-- C6 counterexample: at `(k, n, p) = (0, 2, 10000001/30000001)` the PMF at
`1` ties exactly with the inflated reference `pmf(0)*(1 + 1e-7)`; the
descending-side search returns the tie index itself while the mirrored
ascending-side search includes it, so the two p-values differ
(`500000020000001/900000060000001` versus `1`), refuting the unconditional
symmetry claim. -/
theorem c6_counterexample :
    ∃ r s : BinomTestResult,
      binomtest 0 2 (10000001/30000001) "two-sided" = .ok r ∧
      binomtest 2 2 (1 - 10000001/30000001) "two-sided" = .ok s ∧
      r.pvalue ≠ s.pvalue := by
  have hL : ⌈(10000001/30000001 : ℚ) * ((2 : ℕ) : ℚ)⌉ = 1 := by
    rw [Int.ceil_eq_iff]
    norm_num
  have hr1 : binary_search_for_binom_tst
      (fun x1 => -binomPmf 2 ((10000001 : ℚ)/30000001) x1)
      (-binomPmf 2 ((10000001 : ℚ)/30000001) ((0 : ℕ) : ℤ) * (1 + 1 / 10000000))
      1 ((2 : ℕ) : ℤ) false = 1 := by
    rw [binary_search_for_binom_tst]
    norm_num [binomPmf, show (1 : ℤ).toNat = 1 from rfl]
  have hraw1 : twoSidedRaw 0 2 (10000001/30000001) =
      500000020000001/900000060000001 := by
    rw [twoSidedRaw_left_eval (by norm_num) (by norm_num) hL hr1]
    norm_num [binomCdf, binomSf, binomPmf, Finset.sum_range_succ]
  have hF : ⌊(1 - 10000001/30000001 : ℚ) * ((2 : ℕ) : ℚ)⌋ = 1 := by
    rw [Int.floor_eq_iff]
    norm_num
  have hr2 : binary_search_for_binom_tst
      (fun x1 => binomPmf 2 (1 - 10000001/30000001 : ℚ) x1)
      (binomPmf 2 (1 - 10000001/30000001 : ℚ) ((2 : ℕ) : ℤ) * (1 + 1 / 10000000))
      0 (1 + 1) true = 1 := by
    rw [binary_search_for_binom_tst]
    norm_num [binomPmf, show (1 : ℤ).toNat = 1 from rfl,
      show (2 : ℤ).toNat = 2 from rfl]
  have hraw2 : twoSidedRaw 2 2 (1 - 10000001/30000001) = 1 := by
    rw [twoSidedRaw_right_eval (by norm_num) (by norm_num) hF hr2]
    norm_num [binomCdf, binomSf, binomPmf, Finset.sum_range_succ]
  have h1 : binomtest 0 2 (10000001/30000001) "two-sided" =
      .ok ⟨0, 2, "two-sided", binomPval 0 2 (10000001/30000001) "two-sided",
        0⟩ := by
    unfold binomtest
    rw [if_neg (by norm_num), if_neg (by norm_num), if_neg (by norm_num),
      if_neg (by decide)]
    norm_num
  have h2 : binomtest 2 2 (1 - 10000001/30000001) "two-sided" =
      .ok ⟨2, 2, "two-sided",
        binomPval 2 2 (1 - 10000001/30000001) "two-sided", 1⟩ := by
    unfold binomtest
    rw [if_neg (by norm_num), if_neg (by norm_num), if_neg (by norm_num),
      if_neg (by decide)]
    norm_num
  refine ⟨_, _, h1, h2, ?_⟩
  dsimp only
  rw [binomPval_two_sided, binomPval_two_sided, hraw1, hraw2]
  norm_num [min_def]
